import Mathlib

/-!
# go-fsm : the registry `FSM`, `AddTx` and `TxBuilder`

A shallow embedding of `src/fsm.go`.

* `Status` is Go's `int`; the code never does arithmetic on it, so it is an `Int`.
* `Option` (Go's `interface{}`) is the type `Opt` below (the Go name would hide
  Lean's own `Option`).
* A value of type `error` is `none` (Go's nil) or `some` of a `GoError`.
* An `ActionFunc` is a callable: its result is a function of the argument list it
  receives. Every call that `TxBuilder` makes is recorded in the `calls` field of
  its result, in the order the calls happen. Closures that write variables of
  the program, the receiver among them, are the subject of the namespace `Eff`.
* A Go map is either nil or an allocated table with one value per key
  (`GoMap`). A write to a nil map panics. `range` visits every entry once, in an
  order the language does not fix: a `RangeOrder` is any listing of the entries.
* Slices are lists, the nil slice being `[]`; indexing outside the slice panics.
  This is `append` for slices that share no array; slices as windows on arrays,
  where `append` writes in place, are the subject of the namespace `Mem`.
* `fsm.Lock()` / `defer fsm.Unlock()` bracket `AddTx`; in the sequential
  semantics given here (one caller, mutex free at the call) they leave the data
  unchanged and are not modelled.
-/

namespace GoFsm

/-- Go: `type Status = int`. -/
abbrev Status := Int

/-- Go: `type Option = interface{}`; a dynamic value. `TxBuilder` passes map keys,
which are strings. -/
inductive Opt where
  | str (s : String)
  | int (i : Int)
  | nilValue
  deriving DecidableEq

/-- A non-nil value of Go's `error` interface. -/
structure GoError where
  msg : String
  deriving DecidableEq

/-- Go: `type ActionFunc func(opts ...Option) (status Status, e error)`. -/
abbrev ActionFunc := List Opt → Status × Option GoError

/-- Run-time panics the code of `fsm.go` can reach. -/
inductive GoPanic where
  | assignNilMap
  | indexOutOfRange (i : Int) (len : Nat)
  deriving DecidableEq

/-- One entry of a `map[string]V`. -/
abbrev Entry (V : Type) := Sigma (fun _ : String => V)

/-- A Go `map[string]V`: nil, or an allocated table with at most one value per key. -/
inductive GoMap (V : Type) where
  | nil
  | made (m : AList (fun _ : String => V))

namespace GoMap

variable {V : Type}

/-- Go: `make(map[string]V)`. -/
def make : GoMap V := made ∅

/-- Go: `m == nil`. -/
def isNil : GoMap V → Bool
  | nil => true
  | made _ => false

/-- The entries a `range` over the map visits (none for a nil map). -/
def entries : GoMap V → List (Entry V)
  | nil => []
  | made m => m.entries

/-- Go: `len(m)`. -/
def len (m : GoMap V) : Nat := m.entries.length

/-- Go: `v, ok := m[k]`. -/
def lookup (k : String) : GoMap V → Option V
  | nil => none
  | made m => m.lookup k

/-- Go: `m[k] = v`; panics on a nil map. -/
def store (k : String) (v : V) : GoMap V → Except GoPanic (GoMap V)
  | nil => .error .assignNilMap
  | made m => .ok (made (m.insert k v))

/-- The table behind the map, a nil map having none: the empty table. -/
def table : GoMap V → AList (fun _ : String => V)
  | nil => ∅
  | made m => m

end GoMap

/-- Go: `m[k]` for a `map[string][]Option`: the stored slice, or the nil slice. -/
def optsAt (m : GoMap (List Opt)) (k : String) : List Opt := (m.lookup k).getD []

/-- Go: `type FSM struct { sync.RWMutex; Txs; TxsOpts; Status }`. -/
structure FSM where
  Txs : GoMap ActionFunc
  TxsOpts : GoMap (List Opt)
  Status : Status

/-- The zero value `FSM{}`: both maps nil, `Status` 0. -/
def FSM.zero : FSM := { Txs := .nil, TxsOpts := .nil, Status := 0 }

/-- Go: `reflect.ValueOf(actionFunc).String()`. The value's kind is Func, not
String, so the standard library returns `"<" + v.Type().String() + " Value>"`; the
static type of `actionFunc` is `fsm.ActionFunc`. -/
def reflectValueString (_actionFunc : ActionFunc) : String := "<fsm.ActionFunc Value>"

/-- Lines 42-44 of `fsm.go`:
`for _, opt := range opts { fsm.TxsOpts[actionName] = append(fsm.TxsOpts[actionName], opt) }`,
for slices that share no array (`Mem.appendOpts` has the arrays). -/
def appendOpts (actionName : String) :
    List Opt → GoMap (List Opt) → Except GoPanic (GoMap (List Opt))
  | [], m => .ok m
  | opt :: rest, m =>
    match m.store actionName (optsAt m actionName ++ [opt]) with
    | .error p => .error p
    | .ok m' => appendOpts actionName rest m'

/-- Lines 32-45 of `fsm.go`, once `actionName` is known. The guard `opts != nil` is
`opts ≠ []`: a non-nil empty `opts` passes the guard and loops zero times, which
has the effect of skipping it. -/
def AddTxAt (fsm : FSM) (actionName : String) (actionFunc : ActionFunc) (opts : List Opt) :
    Except GoPanic FSM :=
  let txs := if fsm.Txs.isNil then GoMap.make else fsm.Txs
  let txsOpts := if fsm.TxsOpts.isNil then GoMap.make else fsm.TxsOpts
  match txs.store actionName actionFunc with
  | .error p => .error p
  | .ok txs' =>
    if opts ≠ [] then
      match appendOpts actionName opts txsOpts with
      | .error p => .error p
      | .ok txsOpts' => .ok { Txs := txs', TxsOpts := txsOpts', Status := fsm.Status }
    else
      .ok { Txs := txs', TxsOpts := txsOpts, Status := fsm.Status }

/-- Go: `func (fsm *FSM) AddTx(actionFunc ActionFunc, opts ...Option)`. -/
def AddTx (fsm : FSM) (actionFunc : ActionFunc) (opts : List Opt) : Except GoPanic FSM :=
  AddTxAt fsm (reflectValueString actionFunc) actionFunc opts

/-- An order in which `range m` may visit the entries of `m`: each entry once. -/
structure RangeOrder {V : Type} (m : GoMap V) where
  order : List (Entry V)
  perm : order.Perm m.entries

/-- One call `f(action)` made by `TxBuilder`. -/
structure Call where
  action : String
  f : ActionFunc
  opts : List Opt

/-- What a call of `TxBuilder` leaves behind: the two results, the calls it made
(in order) and the receiver afterwards. -/
structure TxResult where
  status : Status
  e : Option GoError
  calls : List Call
  fsm : FSM

/-- Go: `statuses[i]`. -/
def sliceIndex (statuses : List Status) (i : Int) : Except GoPanic Status :=
  if i < 0 then .error (.indexOutOfRange i statuses.length)
  else
    match statuses[i.toNat]? with
    | some s => .ok s
    | none => .error (.indexOutOfRange i statuses.length)

/-- The call `TxBuilder` makes for the entry `(action, f)`: `f(action)`. -/
def callOf (x : Entry ActionFunc) : Call := { action := x.1, f := x.2, opts := [Opt.str x.1] }

/-- Lines 53-61 of `fsm.go`: the loop over the entries still to visit, with the
locals `statuses` and `n`, followed by the final `return statuses[n], e` where `e`
is the named result, still nil (the loop's `e` is a new variable). -/
def TxBuilderLoop (fsm : FSM) :
    List (Entry ActionFunc) → List Status → Int → List Call → Except GoPanic TxResult
  | [], statuses, n, calls =>
    match sliceIndex statuses n with
    | .error p => .error p
    | .ok s => .ok { status := s, e := none, calls := calls, fsm := fsm }
  | x :: rest, statuses, n, calls =>
    let n := n + 1
    let r := x.2 [Opt.str x.1]
    let calls := calls ++ [callOf x]
    match r.2 with
    | some err =>
      match sliceIndex statuses (n - 1) with
      | .error p => .error p
      | .ok s => .ok { status := s, e := some err, calls := calls, fsm := fsm }
    | none => TxBuilderLoop fsm rest (statuses ++ [r.1]) n calls

/-- Go: `func (fsm *FSM) TxBuilder() (status Status, e error)`, the `range` visiting
the entries of `fsm.Txs` in the order `r`. -/
def TxBuilder (fsm : FSM) (r : RangeOrder fsm.Txs) : Except GoPanic TxResult :=
  TxBuilderLoop fsm r.order ([] ++ [fsm.Status]) 0 []

/-- The status an entry's action returns when called with its own key. -/
def statusOf (x : Entry ActionFunc) : Status := (x.2 [Opt.str x.1]).1

/-- The error an entry's action returns when called with its own key. -/
def errorOf (x : Entry ActionFunc) : Option GoError := (x.2 [Opt.str x.1]).2

/-- The status returned by the last entry of `done`, or `s` when `done` is empty. -/
def lastStatus (s : Status) (done : List (Entry ActionFunc)) : Status :=
  match done.getLast? with
  | some x => statusOf x
  | none => s

/-- The values of the locals `statuses` and `n` each time the loop of lines 53-60
reaches its head: before every iteration it runs, and at its exit. An iteration
whose action fails returns, so no head follows it. -/
def TxBuilderHeads :
    List (Entry ActionFunc) → List Status → Int → List (List Status × Int)
  | [], statuses, n => [(statuses, n)]
  | x :: rest, statuses, n =>
    (statuses, n) ::
      (match (x.2 [Opt.str x.1]).2 with
       | some _ => []
       | none => TxBuilderHeads rest (statuses ++ [(x.2 [Opt.str x.1]).1]) (n + 1))

/-- A sequence of calls `fsm.AddTx(f, opts...)`, one per element, in order. -/
def AddTxAll : FSM → List (ActionFunc × List Opt) → Except GoPanic FSM
  | fsm, [] => .ok fsm
  | fsm, (f, opts) :: rest =>
    match AddTx fsm f opts with
    | .error p => .error p
    | .ok fsm' => AddTxAll fsm' rest

/-! ## Actions that write: `TxBuilder` with closures

In the definitions above an action is known by its results alone. A Go
`ActionFunc` is a closure: the call `f(action)` of line 55 may also write
variables of the program, the receiver `*fsm` among them. Here the state of the
program is a value of a type `W`, an action returns its results together with the
state it leaves, and `recv` reads the receiver out of the state. The `range` of
line 53 visits the entries the map had when the loop began. -/

namespace Eff

/-- Go: `type ActionFunc func(opts ...Option) (status Status, e error)`, a closure
over the program state `W`. -/
abbrev ActionFunc (W : Type) := List Opt → W → (Status × Option GoError) × W

/-- Go: `type FSM struct { sync.RWMutex; Txs; TxsOpts; Status }`, its actions being
closures over `W`. -/
structure FSM (W : Type) where
  Txs : GoMap (ActionFunc W)
  TxsOpts : GoMap (List Opt)
  Status : Status

/-- What `TxBuilder` returns, and the program state it leaves. -/
structure TxResult (W : Type) where
  status : Status
  e : Option GoError
  world : W

/-- Lines 53-61 of `fsm.go`, the program state `w` passing through every call. -/
def TxBuilderLoop {W : Type} :
    List (Entry (ActionFunc W)) → List Status → Int → W → Except GoPanic (TxResult W)
  | [], statuses, n, w =>
    match sliceIndex statuses n with
    | .error p => .error p
    | .ok s => .ok { status := s, e := none, world := w }
  | x :: rest, statuses, n, w =>
    let n := n + 1
    let r := x.2 [Opt.str x.1] w
    match r.1.2 with
    | some err =>
      match sliceIndex statuses (n - 1) with
      | .error p => .error p
      | .ok s => .ok { status := s, e := some err, world := r.2 }
    | none => TxBuilderLoop rest (statuses ++ [r.1.1]) n r.2

/-- Go: `func (fsm *FSM) TxBuilder() (status Status, e error)` called in the program
state `w`, where the receiver is `recv w`. -/
def TxBuilder {W : Type} (recv : W → FSM W) (w : W) (r : RangeOrder (recv w).Txs) :
    Except GoPanic (TxResult W) :=
  TxBuilderLoop r.order ([] ++ [(recv w).Status]) 0 w

/-- An action of the first model as a closure that writes nothing. -/
def quiet {W : Type} (x : Entry GoFsm.ActionFunc) : Entry (ActionFunc W) :=
  ⟨x.1, fun opts w => (x.2 opts, w)⟩

/-- A closure that fails with the status 5 after writing 99 to the program state. -/
def actBump : ActionFunc Int := fun _ _ => ((5, some { msg := "e" }), 99)

/-- A program whose state is the `Status` field of the receiver; the receiver's
one action is `actBump`, which therefore sets `fsm.Status = 99`. -/
def recvBump (s : Int) : FSM Int :=
  { Txs := .made (AList.insert "a" actBump ∅), TxsOpts := .nil, Status := s }

/-- A closure that succeeds with the status 1 and writes nothing. -/
def actCalm : ActionFunc Int := fun _ w => ((1, none), w)

/-- A program whose state is the `Status` field of the receiver; the receiver's
one action is `actCalm`. -/
def recvCalm (s : Int) : FSM Int :=
  { Txs := .made (AList.insert "a" actCalm ∅), TxsOpts := .nil, Status := s }

end Eff

/-! ## Slices in memory: `AddTx` with arrays

In `appendOpts` above a slice is the list of its elements, which is what `append`
computes as long as the slices at hand share no array. A Go slice is a window on
an array: `append` writes in place when the window has spare capacity and moves
to a new array otherwise, so a write through one slice shows through every slice
on the same array. Here the arrays live in a `Heap`, a slice is the description of
its window, and the variadic `opts` is a slice too, read element by element while
the loop of lines 42-44 runs. -/

namespace Mem

/-- A Go slice value: the array `arr`, the window starting at `off`, with `len`
elements and room for `cap`. -/
structure Slice where
  arr : Nat
  off : Nat
  len : Nat
  cap : Nat
  deriving DecidableEq

/-- The nil slice. -/
def Slice.nil : Slice := { arr := 0, off := 0, len := 0, cap := 0 }

/-- The memory of the arrays: the cell `j` of the array `a` holds `cells a j`; the
arrays `0 .. next - 1` are allocated. -/
structure Heap where
  cells : Nat → Nat → Opt
  next : Nat

/-- Go: `s[i]`. -/
def Heap.read (h : Heap) (s : Slice) (i : Nat) : Opt := h.cells s.arr (s.off + i)

/-- The elements of the slice `s`, in order. -/
def Heap.view (h : Heap) (s : Slice) : List Opt := (List.range s.len).map (h.read s)

/-- The cell `j` of the array `a` lies in the spare capacity of `s`: within its
window, past its length. -/
def Slice.spare (s : Slice) (a j : Nat) : Prop :=
  a = s.arr ∧ s.off + s.len ≤ j ∧ j < s.off + s.cap

/-- No element of `t` lies in the spare capacity of `s`. -/
def Slice.clearOf (s t : Slice) : Prop := ∀ i, i < t.len → ¬ s.spare t.arr (t.off + i)

/-- Go: `append(s, v)`. With spare capacity the element is written in place, after
the last one; otherwise the elements move to a new array, whose capacity the
implementation chooses (`grow`, at least the length needed), and its other cells
are zero values. -/
def goAppend (grow : Nat → Nat) (h : Heap) (s : Slice) (v : Opt) : Slice × Heap :=
  if s.len < s.cap then
    ({ s with len := s.len + 1 },
     { h with cells := fun a j => if a = s.arr ∧ j = s.off + s.len then v else h.cells a j })
  else
    ({ arr := h.next, off := 0, len := s.len + 1, cap := max (grow s.cap) (s.len + 1) },
     { cells := fun a j =>
         if a = h.next then
           (if j < s.len then h.read s j else if j = s.len then v else Opt.nilValue)
         else h.cells a j,
       next := h.next + 1 })

/-- Go: `type FSM struct { sync.RWMutex; Txs; TxsOpts; Status }`, the option lists
being slices in memory. -/
structure FSM where
  Txs : GoMap ActionFunc
  TxsOpts : GoMap Slice
  Status : Status

/-- Go: `m[k]` for a `map[string][]Option`: the stored slice, or the nil slice. -/
def sliceAt (m : GoMap Slice) (k : String) : Slice := (m.lookup k).getD Slice.nil

/-- Lines 42-44 of `fsm.go`, for the indices of `opts` still to visit:
`for _, opt := range opts { fsm.TxsOpts[actionName] = append(fsm.TxsOpts[actionName], opt) }`.
The element `opts[i]` is read when its iteration begins. -/
def appendOpts (grow : Nat → Nat) (actionName : String) (opts : Slice) :
    List Nat → GoMap Slice → Heap → Except GoPanic (GoMap Slice × Heap)
  | [], m, h => .ok (m, h)
  | i :: rest, m, h =>
    let opt := h.read opts i
    let r := goAppend grow h (sliceAt m actionName) opt
    match m.store actionName r.1 with
    | .error p => .error p
    | .ok m' => appendOpts grow actionName opts rest m' r.2

/-- Lines 32-45 of `fsm.go`, once `actionName` is known. The guard `opts != nil` is
`opts ≠ Slice.nil`: an empty `opts` that is not nil passes the guard and loops zero
times, which has the effect of skipping it. -/
def AddTxAt (grow : Nat → Nat) (fsm : FSM) (h : Heap) (actionName : String)
    (actionFunc : ActionFunc) (opts : Slice) : Except GoPanic (FSM × Heap) :=
  let txs := if fsm.Txs.isNil then GoMap.make else fsm.Txs
  let txsOpts := if fsm.TxsOpts.isNil then GoMap.make else fsm.TxsOpts
  match txs.store actionName actionFunc with
  | .error p => .error p
  | .ok txs' =>
    if opts ≠ Slice.nil then
      match appendOpts grow actionName opts (List.range opts.len) txsOpts h with
      | .error p => .error p
      | .ok r => .ok ({ Txs := txs', TxsOpts := r.1, Status := fsm.Status }, r.2)
    else
      .ok ({ Txs := txs', TxsOpts := txsOpts, Status := fsm.Status }, h)

/-- Go: `func (fsm *FSM) AddTx(actionFunc ActionFunc, opts ...Option)`, the arrays
being those of `h`. -/
def AddTx (grow : Nat → Nat) (fsm : FSM) (h : Heap) (actionFunc : ActionFunc) (opts : Slice) :
    Except GoPanic (FSM × Heap) :=
  AddTxAt grow fsm h (reflectValueString actionFunc) actionFunc opts

/-- A growth policy: double the capacity. -/
def double (c : Nat) : Nat := 2 * c

/-- Memory with one array, holding 1, 2 and a zero value. -/
def heapShared : Heap :=
  { cells := fun a j =>
      if a = 0 then (if j = 0 then Opt.int 1 else if j = 1 then Opt.int 2 else Opt.nilValue)
      else Opt.nilValue,
    next := 1 }

/-- An FSM whose option list under the key of every action is the first element of
the array 0, with room for three. -/
def fsmShared : FSM :=
  { Txs := .nil,
    TxsOpts := .made (AList.insert "<fsm.ActionFunc Value>" { arr := 0, off := 0, len := 1, cap := 3 } ∅),
    Status := 0 }

/-- The first two elements of the array 0, passed as `opts`. -/
def optsShared : Slice := { arr := 0, off := 0, len := 2, cap := 2 }

/-- Memory with two arrays: 1, 2, 3 and 99. -/
def heapOther : Heap :=
  { cells := fun a j =>
      if a = 0 then
        (if j = 0 then Opt.int 1 else if j = 1 then Opt.int 2 else if j = 2 then Opt.int 3
         else Opt.nilValue)
      else if a = 1 then (if j = 0 then Opt.int 99 else Opt.nilValue)
      else Opt.nilValue,
    next := 2 }

/-- The whole array 0, stored under the key `"other"`. -/
def sliceOther : Slice := { arr := 0, off := 0, len := 3, cap := 3 }

/-- An FSM storing `sliceOther` under `"other"` and, under the key of every action,
the first element of the same array with room for three. -/
def fsmOther : FSM :=
  { Txs := .nil,
    TxsOpts := .made (AList.insert "other" sliceOther
      (AList.insert "<fsm.ActionFunc Value>" { arr := 0, off := 0, len := 1, cap := 3 } ∅)),
    Status := 0 }

/-- The array 1, passed as `opts`: the one option 99. -/
def optsFresh : Slice := { arr := 1, off := 0, len := 1, cap := 1 }

/-- An FSM storing `sliceOther` under `"other"` and nothing under the key of the
actions. -/
def fsmApart : FSM :=
  { Txs := .nil, TxsOpts := .made (AList.insert "other" sliceOther ∅), Status := 0 }

end Mem

/-! ## Sample inputs -/

/-- An action that always succeeds with status `s`. -/
def actOk (s : Status) : ActionFunc := fun _ => (s, none)

/-- An action that always fails with the error `msg`, next to the status `s`. -/
def actFail (s : Status) (msg : String) : ActionFunc := fun _ => (s, some { msg := msg })

/-- A table listing its entries in the given order. -/
def tableOf {V : Type} (xs : List (Entry V)) : AList (fun _ : String => V) :=
  xs.foldr (fun x m => m.insert x.1 x.2) ∅

/-- The order in which a table stores its entries, as an order of traversal. -/
def RangeOrder.stored {V : Type} (m : GoMap V) : RangeOrder m :=
  { order := m.entries, perm := List.Perm.refl _ }

/-- An FSM built as a literal: `"a"` succeeds with 1, `"b"` fails, `"c"` succeeds with 3. -/
def fsmAbc : FSM :=
  { Txs := .made (tableOf [⟨"a", actOk 1⟩, ⟨"b", actFail 2 "boom"⟩, ⟨"c", actOk 3⟩]),
    TxsOpts := .nil, Status := 7 }

/-- An FSM built as a literal with two succeeding actions. -/
def fsmOk : FSM :=
  { Txs := .made (tableOf [⟨"a", actOk 1⟩, ⟨"c", actOk 3⟩]), TxsOpts := .nil, Status := 7 }

/-- An FSM built as a literal whose one action, under the key `"a"`, fails. -/
def fsmBoom : FSM :=
  { Txs := .made (tableOf [⟨"a", actFail 0 "boom"⟩]), TxsOpts := .nil, Status := 7 }

/-- The FSM `fsmBoom` after `AddTx(actOk 1)`. -/
def fsmBoom1 : FSM :=
  { Txs := .made (tableOf [⟨"<fsm.ActionFunc Value>", actOk 1⟩, ⟨"a", actFail 0 "boom"⟩]),
    TxsOpts := .made ∅, Status := 7 }

/-- The FSM `fsmBoom1` after `AddTx(actOk 2)`. -/
def fsmBoom2 : FSM :=
  { Txs := .made (tableOf [⟨"<fsm.ActionFunc Value>", actOk 2⟩, ⟨"a", actFail 0 "boom"⟩]),
    TxsOpts := .made ∅, Status := 7 }

/-- The traversal of `fsmBoom2.Txs` that visits `"a"` first. -/
def boomFirst : RangeOrder fsmBoom2.Txs :=
  { order := [⟨"a", actFail 0 "boom"⟩, ⟨"<fsm.ActionFunc Value>", actOk 2⟩],
    perm := List.Perm.swap _ _ [] }

/-- The traversal of `fsmOk.Txs` that visits `"c"` before `"a"`. -/
def okReversed : RangeOrder fsmOk.Txs :=
  { order := [⟨"c", actOk 3⟩, ⟨"a", actOk 1⟩], perm := List.Perm.swap _ _ [] }

/-! ## The loop of `TxBuilder` -/

theorem fsmAbc_entries : fsmAbc.Txs.entries =
    [⟨"a", actOk 1⟩, ⟨"b", actFail 2 "boom"⟩, ⟨"c", actOk 3⟩] := by
  rfl

theorem fsmOk_entries : fsmOk.Txs.entries = [⟨"a", actOk 1⟩, ⟨"c", actOk 3⟩] := by
  rfl

theorem lastStatus_nil (s : Status) : lastStatus s [] = s := rfl

theorem lastStatus_cons (s : Status) (x : Entry ActionFunc) (rest : List (Entry ActionFunc)) :
    lastStatus s (x :: rest) = lastStatus (statusOf x) rest := by
  cases rest with
  | nil => simp [lastStatus]
  | cons y ys =>
    have h : (y :: ys).getLast? = some ((y :: ys).getLast (List.cons_ne_nil _ _)) :=
      List.getLast?_eq_getLast _ _
    simp only [lastStatus, List.getLast?_cons_cons, h]

theorem sliceIndex_last (init : List Status) (s : Status) :
    sliceIndex (init ++ [s]) (init.length : Int) = .ok s := by
  have h : ¬ ((init.length : Int) < 0) := by omega
  simp [sliceIndex, h]

/-- Every remaining entry succeeds: the loop runs to the end and returns the
last status appended. -/
theorem loop_all_ok (fsm : FSM) :
    ∀ (order : List (Entry ActionFunc)) (init : List Status) (s : Status) (calls : List Call),
      (∀ x ∈ order, errorOf x = none) →
      TxBuilderLoop fsm order (init ++ [s]) (init.length : Int) calls =
        .ok { status := lastStatus s order, e := none,
              calls := calls ++ order.map callOf, fsm := fsm } := by
  intro order
  induction order with
  | nil =>
    intro init s calls _
    simp [TxBuilderLoop, sliceIndex_last, lastStatus_nil]
  | cons x rest ih =>
    intro init s calls h
    have hx : (x.2 [Opt.str x.1]).2 = none := h x (List.mem_cons_self _ _)
    have hrest : ∀ y ∈ rest, errorOf y = none := fun y hy => h y (List.mem_cons_of_mem _ hy)
    have step := ih (init ++ [s]) (x.2 [Opt.str x.1]).1 (calls ++ [callOf x]) hrest
    have hlen : (((init ++ [s]).length : Nat) : Int) = (init.length : Int) + 1 := by simp
    rw [hlen] at step
    simp only [TxBuilderLoop, hx]
    rw [step]
    simp only [List.map_cons, lastStatus_cons, List.append_assoc, List.singleton_append, statusOf]

/-- The entries of `pre` succeed and the next one fails: the loop stops there. -/
theorem loop_first_error (fsm : FSM) :
    ∀ (pre : List (Entry ActionFunc)) (x : Entry ActionFunc) (post : List (Entry ActionFunc))
      (err : GoError) (init : List Status) (s : Status) (calls : List Call),
      (∀ p ∈ pre, errorOf p = none) → errorOf x = some err →
      TxBuilderLoop fsm (pre ++ x :: post) (init ++ [s]) (init.length : Int) calls =
        .ok { status := lastStatus s pre, e := some err,
              calls := calls ++ (pre ++ [x]).map callOf, fsm := fsm } := by
  intro pre
  induction pre with
  | nil =>
    intro x post err init s calls _ hx
    have hx' : (x.2 [Opt.str x.1]).2 = some err := hx
    simp [TxBuilderLoop, hx', sliceIndex_last, lastStatus_nil]
  | cons p pre ih =>
    intro x post err init s calls h hx
    have hp : (p.2 [Opt.str p.1]).2 = none := h p (List.mem_cons_self _ _)
    have hpre : ∀ y ∈ pre, errorOf y = none := fun y hy => h y (List.mem_cons_of_mem _ hy)
    have step := ih x post err (init ++ [s]) (p.2 [Opt.str p.1]).1 (calls ++ [callOf p]) hpre hx
    have hlen : (((init ++ [s]).length : Nat) : Int) = (init.length : Int) + 1 := by simp
    rw [hlen] at step
    rw [List.cons_append]
    simp only [TxBuilderLoop, hp]
    rw [step]
    simp only [List.map_cons, lastStatus_cons, List.append_assoc, List.singleton_append, statusOf,
      List.cons_append, List.nil_append]

/-! ## `AddTx` in closed form -/

theorem made_after_make {V : Type} (m : GoMap V) :
    (if m.isNil then GoMap.make else m) = .made m.table := by
  cases m <;> rfl

theorem optsAt_made (t : AList (fun _ : String => List Opt)) (k : String) :
    optsAt (.made t) k = (t.lookup k).getD [] := rfl

theorem optsAt_table (m : GoMap (List Opt)) (k : String) :
    (m.table.lookup k).getD [] = optsAt m k := by
  cases m <;> rfl

/-- The loop of lines 42-44 on an allocated map never panics; it leaves under
`actionName` the old slice followed by `opts`. -/
theorem appendOpts_made (k : String) :
    ∀ (opts : List Opt) (t : AList (fun _ : String => List Opt)),
      appendOpts k opts (.made t) =
        .ok (.made (if opts = [] then t else t.insert k ((t.lookup k).getD [] ++ opts))) := by
  intro opts
  induction opts with
  | nil => intro t; rfl
  | cons o rest ih =>
    intro t
    simp only [appendOpts, GoMap.store, optsAt_made]
    rw [ih]
    by_cases hr : rest = []
    · simp [hr]
    · simp [hr, AList.lookup_insert, AList.insert_insert]

/-- `AddTxAt` never panics; its effect on the three fields. -/
theorem AddTxAt_eq (fsm : FSM) (k : String) (f : ActionFunc) (opts : List Opt) :
    AddTxAt fsm k f opts =
      .ok { Txs := .made (fsm.Txs.table.insert k f),
            TxsOpts := .made (if opts = [] then fsm.TxsOpts.table
                              else fsm.TxsOpts.table.insert k (optsAt fsm.TxsOpts k ++ opts)),
            Status := fsm.Status } := by
  unfold AddTxAt
  simp only [made_after_make, appendOpts_made, optsAt_table, GoMap.store]
  by_cases ho : opts = []
  · simp [ho]
  · simp [ho]

/-- `AddTx` never panics; its effect on the three fields. -/
theorem AddTx_eq (fsm : FSM) (f : ActionFunc) (opts : List Opt) :
    AddTx fsm f opts =
      .ok { Txs := .made (fsm.Txs.table.insert (reflectValueString f) f),
            TxsOpts := .made (if opts = [] then fsm.TxsOpts.table
                              else fsm.TxsOpts.table.insert (reflectValueString f)
                                (optsAt fsm.TxsOpts (reflectValueString f) ++ opts)),
            Status := fsm.Status } :=
  AddTxAt_eq fsm (reflectValueString f) f opts

/-- The first entry of a list whose action fails, with the entries before it. -/
theorem first_error_split :
    ∀ (l : List (Entry ActionFunc)), (∃ x ∈ l, errorOf x ≠ none) →
      ∃ pre x post err, l = pre ++ x :: post ∧ (∀ p ∈ pre, errorOf p = none) ∧
        errorOf x = some err := by
  intro l
  induction l with
  | nil =>
    rintro ⟨x, hx, _⟩
    cases hx
  | cons a t ih =>
    intro h
    cases ha : errorOf a with
    | some err => exact ⟨[], a, t, err, rfl, by simp, ha⟩
    | none =>
      have ht : ∃ x ∈ t, errorOf x ≠ none := by
        obtain ⟨x, hx, hne⟩ := h
        rcases List.mem_cons.mp hx with rfl | hx'
        · exact absurd ha hne
        · exact ⟨x, hx', hne⟩
      obtain ⟨pre, x, post, err, hl, hpre, hx⟩ := ih ht
      refine ⟨a :: pre, x, post, err, by simp [hl], ?_, hx⟩
      intro p hp
      rcases List.mem_cons.mp hp with rfl | hp'
      · exact ha
      · exact hpre p hp'

/-- A traversal of a map meets every key once. -/
theorem RangeOrder.nodup_keys {V : Type} {m : GoMap V} (r : RangeOrder m) :
    (r.order.map Sigma.fst).Nodup := by
  have hm : (m.entries.map Sigma.fst).Nodup := by
    cases m with
    | nil => simp [GoMap.entries]
    | made t => exact t.nodupKeys
  exact (List.Perm.nodup_iff (List.Perm.map _ r.perm)).mpr hm

/-- `TxBuilder` always returns: it never indexes `statuses` out of range. It leaves
the receiver as it was, and the calls it made are those of an initial segment of
the traversal order, the whole order when it returns a nil error. -/
theorem TxBuilder_total (fsm : FSM) (r : RangeOrder fsm.Txs) :
    ∃ res done, TxBuilder fsm r = .ok res ∧ res.fsm = fsm ∧ done <+: r.order ∧
      res.calls = done.map callOf ∧ (res.e = none → done = r.order) := by
  by_cases h : ∃ x ∈ r.order, errorOf x ≠ none
  · obtain ⟨pre, x, post, err, hl, hpre, hx⟩ := first_error_split r.order h
    have := loop_first_error fsm pre x post err [] fsm.Status [] hpre hx
    refine ⟨_, pre ++ [x], by simpa [TxBuilder, hl] using this, rfl, ?_, by simp, ?_⟩
    · rw [hl]
      exact ⟨post, by simp⟩
    · intro he
      cases he
  · have hok : ∀ x ∈ r.order, errorOf x = none := by
      intro x hx
      by_contra hne
      exact h ⟨x, hx, hne⟩
    have := loop_all_ok fsm r.order [] fsm.Status [] hok
    exact ⟨_, r.order, by simpa [TxBuilder] using this, rfl, List.prefix_refl _, by simp,
      fun _ => rfl⟩

/-- An entry is called as soon as every entry visited before it has succeeded. -/
theorem TxBuilder_reaches (fsm : FSM) (r : RangeOrder fsm.Txs)
    (pre : List (Entry ActionFunc)) (x : Entry ActionFunc) (post : List (Entry ActionFunc))
    (hl : r.order = pre ++ x :: post) (hpre : ∀ p ∈ pre, errorOf p = none)
    (res : TxResult) (hres : TxBuilder fsm r = .ok res) : callOf x ∈ res.calls := by
  have hcall : ∀ (res' : TxResult) (done : List (Entry ActionFunc)),
      TxBuilderLoop fsm r.order ([] ++ [fsm.Status]) ((([] : List Status).length : Nat) : Int) []
        = .ok res' → res'.calls = [] ++ done.map callOf → x ∈ done → callOf x ∈ res.calls := by
    intro res' done h1 h2 h3
    have heq : res = res' := by
      have : TxBuilder fsm r = .ok res' := by simpa [TxBuilder] using h1
      rw [hres] at this
      exact Except.ok.inj this
    rw [heq, h2]
    simpa using List.mem_map_of_mem callOf h3
  cases hx : errorOf x with
  | some err =>
    have h1 := loop_first_error fsm pre x post err [] fsm.Status [] hpre hx
    rw [← hl] at h1
    exact hcall _ (pre ++ [x]) h1 rfl (by simp)
  | none =>
    by_cases h : ∃ y ∈ post, errorOf y ≠ none
    · obtain ⟨pre', y, post', err, hp, hpre', hy⟩ := first_error_split post h
      have hall : ∀ p ∈ pre ++ x :: pre', errorOf p = none := by
        intro p hp'
        rcases List.mem_append.mp hp' with h1 | h1
        · exact hpre p h1
        · rcases List.mem_cons.mp h1 with rfl | h2
          · exact hx
          · exact hpre' p h2
      have h1 := loop_first_error fsm (pre ++ x :: pre') y post' err [] fsm.Status [] hall hy
      have hl' : r.order = (pre ++ x :: pre') ++ y :: post' := by simp [hl, hp]
      rw [← hl'] at h1
      exact hcall _ ((pre ++ x :: pre') ++ [y]) h1 rfl (by simp)
    · have hall : ∀ p ∈ r.order, errorOf p = none := by
        intro p hp'
        rw [hl] at hp'
        rcases List.mem_append.mp hp' with h1 | h1
        · exact hpre p h1
        · rcases List.mem_cons.mp h1 with rfl | h2
          · exact hx
          · by_contra hne
            exact h ⟨p, h2, hne⟩
      have h1 := loop_all_ok fsm r.order [] fsm.Status [] hall
      exact hcall _ r.order h1 rfl (by simp [hl])

/-- `TxBuilder` on a map whose only entry is `x`. -/
theorem TxBuilder_single (fsm : FSM) (r : RangeOrder fsm.Txs) (x : Entry ActionFunc)
    (hl : r.order = [x]) :
    TxBuilder fsm r =
      .ok { status := if errorOf x = none then statusOf x else fsm.Status, e := errorOf x,
            calls := [callOf x], fsm := fsm } := by
  cases hx : errorOf x with
  | some err =>
    have := loop_first_error fsm [] x [] err [] fsm.Status [] (by simp) hx
    simpa [TxBuilder, hl, lastStatus_nil] using this
  | none =>
    have := loop_all_ok fsm [x] [] fsm.Status [] (by simpa using hx)
    simpa [TxBuilder, hl, lastStatus] using this

/-- Two registrations on a registry without entries leave one entry, the second
function under the one key `reflectValueString` gives. -/
theorem AddTx_twice_fresh (fsm : FSM) (h : fsm.Txs = GoMap.nil ∨ fsm.Txs = GoMap.make)
    (f g : ActionFunc) :
    ∃ fsm1 fsm2, AddTx fsm f [] = .ok fsm1 ∧ AddTx fsm1 g [] = .ok fsm2 ∧
      fsm2.Status = fsm.Status ∧
      ∀ r : RangeOrder fsm2.Txs, r.order = [⟨reflectValueString g, g⟩] := by
  refine ⟨_, _, AddTx_eq fsm f [], AddTx_eq _ g [], rfl, ?_⟩
  intro r
  have hp : r.order.Perm (AList.insert (reflectValueString g) g
      (AList.insert (reflectValueString f) f fsm.Txs.table)).entries := r.perm
  have ht : fsm.Txs.table = ∅ := by
    rcases h with h | h <;> rw [h] <;> rfl
  have he : (AList.insert (reflectValueString g) g
      (AList.insert (reflectValueString f) f (∅ : AList (fun _ : String => ActionFunc)))).entries
      = [⟨reflectValueString g, g⟩] := by
    rfl
  generalize r.order = l at hp ⊢
  rw [ht, he] at hp
  exact List.perm_singleton.mp hp

/-- Every call `TxBuilder` makes is the call `f(k)` of an entry `(k, f)` of
`fsm.Txs`, and no key is called twice. -/
theorem TxBuilder_calls (fsm : FSM) (r : RangeOrder fsm.Txs) :
    ∃ res, TxBuilder fsm r = .ok res ∧ res.fsm = fsm ∧
      (∀ c ∈ res.calls, ∃ x ∈ fsm.Txs.entries, c = callOf x) ∧
      (res.calls.map Call.action).Nodup := by
  obtain ⟨res, done, hres, hfsm, hpre, hcalls, _⟩ := TxBuilder_total fsm r
  refine ⟨res, hres, hfsm, ?_, ?_⟩
  · intro c hc
    rw [hcalls] at hc
    obtain ⟨x, hx, rfl⟩ := List.mem_map.mp hc
    exact ⟨x, r.perm.subset (hpre.subset hx), rfl⟩
  · have hmap : res.calls.map Call.action = done.map Sigma.fst := by
      rw [hcalls, List.map_map]
      rfl
    rw [hmap]
    exact List.Nodup.sublist (List.Sublist.map _ hpre.sublist) r.nodup_keys

/-- Among the entries of a table that has just received `k ↦ v`, exactly one has
the key `k`, and it holds `v`. -/
theorem insert_entries_at {V : Type} (t : AList (fun _ : String => V)) (k : String) (v : V) :
    (t.insert k v).entries.filter (fun x => decide (x.1 = k)) = [⟨k, v⟩] := by
  have hnd : (t.insert k v).entries.NodupKeys := (t.insert k v).nodupKeys
  rw [AList.insert_entries] at hnd ⊢
  have hk : k ∉ (List.kerase k t.entries).keys := (List.nodupKeys_cons.mp hnd).1
  have hnil : (List.kerase k t.entries).filter (fun x => decide (x.1 = k)) = [] := by
    rw [List.filter_eq_nil_iff]
    intro x hx hd
    have hxk : x.1 = k := by simpa using hd
    have hmem := List.mem_keys_of_mem hx
    rw [hxk] at hmem
    exact hk hmem
  simp [List.filter_cons, hnil]

/-- Writing a key twice leaves as many entries as writing it once. -/
theorem insert_twice_length {V : Type} (t : AList (fun _ : String => V)) (k : String)
    (v w : V) : ((t.insert k v).insert k w).entries.length = (t.insert k v).entries.length := by
  rw [AList.insert_insert]
  simp [AList.insert_entries]

/-- The entries of a map are the pairs `lookup` finds. -/
theorem GoMap.mem_entries_iff {V : Type} (m : GoMap V) (k : String) (v : V) :
    (⟨k, v⟩ : Entry V) ∈ m.entries ↔ m.lookup k = some v := by
  cases m with
  | nil => simp [GoMap.entries, GoMap.lookup]
  | made t =>
    simp only [GoMap.entries, GoMap.lookup]
    exact (AList.mem_lookup_iff (s := t)).symm.trans (by simp [Option.mem_def])

/-- What `TxBuilder` does for a key `k` that `fsm.Txs` maps to `g`: at most one call
for `k`, which is `g(k)`, made as soon as every entry visited before succeeds. -/
theorem TxBuilder_at_key (fsm : FSM) (k : String) (g : ActionFunc)
    (hlook : fsm.Txs.lookup k = some g) (r : RangeOrder fsm.Txs) :
    ∃ res, TxBuilder fsm r = .ok res ∧
      (∀ c ∈ res.calls, c.action = k → c = callOf ⟨k, g⟩) ∧
      (res.calls.map Call.action).count k ≤ 1 ∧
      ∃ pre post, r.order = pre ++ ⟨k, g⟩ :: post ∧
        ((∀ p ∈ pre, errorOf p = none) → callOf ⟨k, g⟩ ∈ res.calls) := by
  obtain ⟨res, hres, _, hcalls, hnd⟩ := TxBuilder_calls fsm r
  refine ⟨res, hres, ?_, List.nodup_iff_count_le_one.mp hnd k, ?_⟩
  · intro c hc hk
    obtain ⟨x, hx, rfl⟩ := hcalls c hc
    obtain ⟨a, v⟩ := x
    have ha : a = k := hk
    subst ha
    have hv := (GoMap.mem_entries_iff fsm.Txs a v).mp hx
    rw [hlook] at hv
    have : g = v := by simpa using hv
    rw [this]
  · have hmem : (⟨k, g⟩ : Entry ActionFunc) ∈ r.order :=
      r.perm.symm.subset ((GoMap.mem_entries_iff fsm.Txs k g).mpr hlook)
    obtain ⟨pre, post, hl⟩ := List.append_of_mem hmem
    exact ⟨pre, post, hl, fun hpre => TxBuilder_reaches fsm r pre _ post hl hpre res hres⟩

/-! ## Claims about `TxBuilder` -/

/-- C1: whatever the traversal order, when some entry's action returns a non-nil
error for its own key, `TxBuilder` returns the error of the first such entry of
the order, unchanged, together with the status returned by the entry just before
it (`fsm.Status` when there is none); it has called the entries up to the failing
one, and no entry placed after it. -/
theorem TxBuilder_first_error (fsm : FSM) (r : RangeOrder fsm.Txs)
    (h : ∃ x ∈ r.order, errorOf x ≠ none) :
    ∃ pre x post err, r.order = pre ++ x :: post ∧ (∀ p ∈ pre, errorOf p = none) ∧
      errorOf x = some err ∧
      TxBuilder fsm r = .ok { status := lastStatus fsm.Status pre, e := some err,
                              calls := (pre ++ [x]).map callOf, fsm := fsm } ∧
      ∀ y ∈ post, ∀ c ∈ (pre ++ [x]).map callOf, c.action ≠ y.1 := by
  obtain ⟨pre, x, post, err, hl, hpre, hx⟩ := first_error_split r.order h
  refine ⟨pre, x, post, err, hl, hpre, hx, ?_, ?_⟩
  · have := loop_first_error fsm pre x post err [] fsm.Status [] hpre hx
    simpa [TxBuilder, hl] using this
  · intro y hy c hc heq
    have hnd := r.nodup_keys
    rw [hl] at hnd
    have hnd' : ((pre ++ [x]).map Sigma.fst ++ post.map Sigma.fst).Nodup := by
      simpa using hnd
    obtain ⟨z, hz, rfl⟩ := List.mem_map.mp hc
    have h1 : z.1 ∈ (pre ++ [x]).map Sigma.fst := List.mem_map_of_mem _ hz
    have h2 : y.1 ∈ post.map Sigma.fst := List.mem_map_of_mem _ hy
    exact (List.disjoint_of_nodup_append hnd') h1 (by rw [show z.1 = y.1 from heq]; exact h2)

/-- C1 at the literal `fsmAbc`, visited in the order a, b, c. -/
theorem TxBuilder_first_error_witness :
    (∃ x ∈ (RangeOrder.stored fsmAbc.Txs).order, errorOf x ≠ none) ∧
    ∃ pre x post err, (RangeOrder.stored fsmAbc.Txs).order = pre ++ x :: post ∧
      (∀ p ∈ pre, errorOf p = none) ∧ errorOf x = some err ∧
      TxBuilder fsmAbc (RangeOrder.stored fsmAbc.Txs) =
        .ok { status := lastStatus fsmAbc.Status pre, e := some err,
              calls := (pre ++ [x]).map callOf, fsm := fsmAbc } ∧
      ∀ y ∈ post, ∀ c ∈ (pre ++ [x]).map callOf, c.action ≠ y.1 :=
  have h : ∃ x ∈ (RangeOrder.stored fsmAbc.Txs).order, errorOf x ≠ none :=
    ⟨⟨"b", actFail 2 "boom"⟩, by simp [RangeOrder.stored, fsmAbc_entries],
      by simp [errorOf, actFail]⟩
  ⟨h, TxBuilder_first_error fsmAbc (RangeOrder.stored fsmAbc.Txs) h⟩

/-- C2: whatever the traversal order of a map with at least one entry, when every
entry's action returns a nil error for its own key, `TxBuilder` returns the status
returned by the last entry of the order and a nil error, having called every
entry in that order. -/
theorem TxBuilder_all_succeed (fsm : FSM) (r : RangeOrder fsm.Txs)
    (hlen : 0 < fsm.Txs.len) (hok : ∀ x ∈ r.order, errorOf x = none) :
    ∃ last, r.order.getLast? = some last ∧
      TxBuilder fsm r = .ok { status := statusOf last, e := none,
                              calls := r.order.map callOf, fsm := fsm } := by
  have hne : r.order ≠ [] := by
    intro h0
    have := r.perm.length_eq
    rw [h0] at this
    simp only [GoMap.len] at hlen
    simp at this
    omega
  have hlast : r.order.getLast? = some (r.order.getLast hne) := List.getLast?_eq_getLast _ _
  refine ⟨r.order.getLast hne, hlast, ?_⟩
  have := loop_all_ok fsm r.order [] fsm.Status [] hok
  simpa [TxBuilder, lastStatus, hlast] using this

/-- C2 at the literal `fsmOk`, visited in the order a, c. -/
theorem TxBuilder_all_succeed_witness :
    0 < fsmOk.Txs.len ∧ (∀ x ∈ (RangeOrder.stored fsmOk.Txs).order, errorOf x = none) ∧
    ∃ last, (RangeOrder.stored fsmOk.Txs).order.getLast? = some last ∧
      TxBuilder fsmOk (RangeOrder.stored fsmOk.Txs) =
        .ok { status := statusOf last, e := none,
              calls := (RangeOrder.stored fsmOk.Txs).order.map callOf, fsm := fsmOk } :=
  have h1 : 0 < fsmOk.Txs.len := by simp [GoMap.len, fsmOk_entries]
  have h2 : ∀ x ∈ (RangeOrder.stored fsmOk.Txs).order, errorOf x = none := by
    simp [RangeOrder.stored, fsmOk_entries, errorOf, actOk]
  ⟨h1, h2, TxBuilder_all_succeed fsmOk (RangeOrder.stored fsmOk.Txs) h1 h2⟩

/-- C3: when `Txs` is nil or an empty map, `TxBuilder` returns the seed
`fsm.Status`, whatever its value, and a nil error (and calls nothing). -/
theorem TxBuilder_empty (fsm : FSM) (r : RangeOrder fsm.Txs)
    (h : fsm.Txs = GoMap.nil ∨ fsm.Txs = GoMap.make) :
    TxBuilder fsm r = .ok { status := fsm.Status, e := none, calls := [], fsm := fsm } := by
  have hent : fsm.Txs.entries = [] := by
    rcases h with h | h <;> rw [h] <;> rfl
  have hord : r.order = [] := by
    have := r.perm
    rw [hent] at this
    exact List.Perm.eq_nil this
  have := loop_all_ok fsm [] [] fsm.Status [] (by simp)
  simpa [TxBuilder, hord, lastStatus_nil] using this

/-- C3 at the zero value `FSM{}`. -/
theorem TxBuilder_empty_witness :
    (FSM.zero.Txs = GoMap.nil ∨ FSM.zero.Txs = GoMap.make) ∧
    TxBuilder FSM.zero (RangeOrder.stored FSM.zero.Txs) =
      .ok { status := 0, e := none, calls := [], fsm := FSM.zero } :=
  have h : FSM.zero.Txs = GoMap.nil ∨ FSM.zero.Txs = GoMap.make := Or.inl rfl
  ⟨h, TxBuilder_empty FSM.zero (RangeOrder.stored FSM.zero.Txs) h⟩

/-! ## Claims about `AddTx` followed by `TxBuilder` -/

/-- C4 (the code at the failing input): after `AddTx(actOk 1)` and `AddTx(actOk 2)` on
the zero value, two different functions, `TxBuilder` makes one call only, to the
second function; the first is never called. Both registrations land on the one key
`"<fsm.ActionFunc Value>"`, against the comment of line 38 (the function name is
the key). -/
theorem AddTx_two_actions_one_call :
    ∃ fsm1 fsm2, AddTx FSM.zero (actOk 1) [] = .ok fsm1 ∧ AddTx fsm1 (actOk 2) [] = .ok fsm2 ∧
      actOk 1 ≠ actOk 2 ∧
      ∀ r : RangeOrder fsm2.Txs, ∃ res, TxBuilder fsm2 r = .ok res ∧
        res.calls = [callOf ⟨"<fsm.ActionFunc Value>", actOk 2⟩] ∧
        ∀ c ∈ res.calls, c.f ≠ actOk 1 := by
  obtain ⟨fsm1, fsm2, h1, h2, _, hr⟩ := AddTx_twice_fresh FSM.zero (Or.inl rfl) (actOk 1) (actOk 2)
  have hne : actOk 1 ≠ actOk 2 := by
    intro h
    have := congrFun h []
    simp [actOk] at this
  refine ⟨fsm1, fsm2, h1, h2, hne, ?_⟩
  intro r
  refine ⟨_, TxBuilder_single fsm2 r _ (hr r), rfl, ?_⟩
  intro c hc
  simp only [List.mem_singleton] at hc
  rw [hc]
  exact fun h => hne h.symm

/-- C5 (the code at the failing input): on the zero value (Status 0), after
`AddTx(a)` with `a` returning `(1, nil)` and `AddTx(b)` with `b` returning
`(2, err)`, `TxBuilder` returns `(0, err)`, not `(1, err)`: `a` was replaced by `b`
under the one key and is never called. -/
theorem AddTx_example_failure_returns_seed :
    ∃ fsm1 fsm2, AddTx FSM.zero (actOk 1) [] = .ok fsm1 ∧
      AddTx fsm1 (actFail 2 "err") [] = .ok fsm2 ∧
      ∀ r : RangeOrder fsm2.Txs,
        TxBuilder fsm2 r = .ok { status := 0, e := some { msg := "err" },
                                 calls := [callOf ⟨"<fsm.ActionFunc Value>", actFail 2 "err"⟩],
                                 fsm := fsm2 } := by
  obtain ⟨fsm1, fsm2, h1, h2, hs, hr⟩ :=
    AddTx_twice_fresh FSM.zero (Or.inl rfl) (actOk 1) (actFail 2 "err")
  refine ⟨fsm1, fsm2, h1, h2, ?_⟩
  intro r
  rw [TxBuilder_single fsm2 r _ (hr r), hs]
  simp [errorOf, actFail, reflectValueString, FSM.zero]

/-- C6: on an FSM with Status 0 and no entry yet, after `AddTx(a)` then `AddTx(b)`,
where `a` always returns `(1, nil)` and `b` always returns `(2, nil)`, the seed is
still 0 and `TxBuilder` returns `(2, nil)`. (The one call it makes is to `b`.) -/
theorem AddTx_example_success (fsm : FSM) (a b : ActionFunc)
    (hs : fsm.Status = 0) (h : fsm.Txs = GoMap.nil ∨ fsm.Txs = GoMap.make)
    (_ha : ∀ o, a o = (1, none)) (hb : ∀ o, b o = (2, none)) :
    ∃ fsm1 fsm2, AddTx fsm a [] = .ok fsm1 ∧ AddTx fsm1 b [] = .ok fsm2 ∧
      fsm2.Status = 0 ∧
      ∀ r : RangeOrder fsm2.Txs, ∃ res, TxBuilder fsm2 r = .ok res ∧
        res.status = 2 ∧ res.e = none := by
  obtain ⟨fsm1, fsm2, h1, h2, hst, hr⟩ := AddTx_twice_fresh fsm h a b
  refine ⟨fsm1, fsm2, h1, h2, hst.trans hs, ?_⟩
  intro r
  refine ⟨_, TxBuilder_single fsm2 r _ (hr r), ?_, ?_⟩
  · simp [errorOf, statusOf, hb]
  · simp [errorOf, hb]

/-- C6 at the zero value with `a = actOk 1`, `b = actOk 2`. -/
theorem AddTx_example_success_witness :
    FSM.zero.Status = 0 ∧ (∀ o, actOk 1 o = (1, none)) ∧ (∀ o, actOk 2 o = (2, none)) ∧
    ∃ fsm1 fsm2, AddTx FSM.zero (actOk 1) [] = .ok fsm1 ∧ AddTx fsm1 (actOk 2) [] = .ok fsm2 ∧
      fsm2.Status = 0 ∧
      ∀ r : RangeOrder fsm2.Txs, ∃ res, TxBuilder fsm2 r = .ok res ∧
        res.status = 2 ∧ res.e = none :=
  ⟨rfl, fun _ => rfl, fun _ => rfl,
    AddTx_example_success FSM.zero (actOk 1) (actOk 2) rfl (Or.inl rfl) (fun _ => rfl)
      (fun _ => rfl)⟩

/-- C7 as stated fails: on `fsmBoom`, whose entry `"a"` fails, after `AddTx(actOk 1)`
then `AddTx(actOk 2)` the traversal that visits `"a"` first stops there, and
`TxBuilder` returns without any call for the key of the two registrations: the
latest callable is not invoked. -/
theorem AddTx_twice_then_abort :
    AddTx fsmBoom (actOk 1) [] = .ok fsmBoom1 ∧ AddTx fsmBoom1 (actOk 2) [] = .ok fsmBoom2 ∧
    reflectValueString (actOk 1) = reflectValueString (actOk 2) ∧
    ∃ res, TxBuilder fsmBoom2 boomFirst = .ok res ∧
      res.calls = [callOf ⟨"a", actFail 0 "boom"⟩] ∧
      ¬ ∃ c ∈ res.calls, c.action = reflectValueString (actOk 2) := by
  refine ⟨rfl, rfl, rfl, _, rfl, ?_⟩
  simp [callOf, reflectValueString]

/-- C7, amended: when `AddTx` maps `f` and `g` to the same key `k`, after `AddTx(f)`
then `AddTx(g)` (whatever the options) `Txs` holds exactly one entry for `k`, that
entry is `g`, and `Txs` has as many entries as after `AddTx(f)` alone. A subsequent
`TxBuilder` makes at most one call for `k`; such a call is `g(k)`, never a call of
the replaced registration; and it does make that call when every entry visited
before the entry of `k` succeeds. -/
theorem AddTx_same_key_replaces (fsm : FSM) (f g : ActionFunc) (optsF optsG : List Opt)
    (k : String) (hf : reflectValueString f = k) (hg : reflectValueString g = k) :
    ∃ fsm1 fsm2, AddTx fsm f optsF = .ok fsm1 ∧ AddTx fsm1 g optsG = .ok fsm2 ∧
      fsm2.Txs.lookup k = some g ∧
      fsm2.Txs.entries.filter (fun x => decide (x.1 = k)) = [⟨k, g⟩] ∧
      fsm2.Txs.len = fsm1.Txs.len ∧
      ∀ r : RangeOrder fsm2.Txs, ∃ res, TxBuilder fsm2 r = .ok res ∧
        (∀ c ∈ res.calls, c.action = k → c = callOf ⟨k, g⟩) ∧
        (res.calls.map Call.action).count k ≤ 1 ∧
        ∃ pre post, r.order = pre ++ ⟨k, g⟩ :: post ∧
          ((∀ p ∈ pre, errorOf p = none) → callOf ⟨k, g⟩ ∈ res.calls) := by
  have hlook : (AList.insert k g (AList.insert k f fsm.Txs.table)).lookup k = some g :=
    AList.lookup_insert _
  have hlook2 : GoMap.lookup k (GoMap.made (AList.insert (reflectValueString g) g
      (AList.insert (reflectValueString f) f fsm.Txs.table))) = some g := by
    rw [hf, hg]
    exact hlook
  refine ⟨_, _, AddTx_eq fsm f optsF, AddTx_eq _ g optsG, hlook2, ?_, ?_, ?_⟩
  · rw [hf, hg]
    exact insert_entries_at _ k g
  · rw [hf, hg]
    exact insert_twice_length _ k f g
  · intro r
    exact TxBuilder_at_key _ k g hlook2 r

/-- C7, amended, at the literal `fsmBoom` with `f = actOk 1` and `g = actOk 2`. -/
theorem AddTx_same_key_replaces_witness :
    reflectValueString (actOk 1) = "<fsm.ActionFunc Value>" ∧
    reflectValueString (actOk 2) = "<fsm.ActionFunc Value>" ∧
    ∃ fsm1 fsm2, AddTx fsmBoom (actOk 1) [] = .ok fsm1 ∧ AddTx fsm1 (actOk 2) [] = .ok fsm2 ∧
      fsm2.Txs.lookup "<fsm.ActionFunc Value>" = some (actOk 2) ∧
      fsm2.Txs.entries.filter (fun x => decide (x.1 = "<fsm.ActionFunc Value>")) =
        [⟨"<fsm.ActionFunc Value>", actOk 2⟩] ∧
      fsm2.Txs.len = fsm1.Txs.len ∧
      ∀ r : RangeOrder fsm2.Txs, ∃ res, TxBuilder fsm2 r = .ok res ∧
        (∀ c ∈ res.calls, c.action = "<fsm.ActionFunc Value>" →
          c = callOf ⟨"<fsm.ActionFunc Value>", actOk 2⟩) ∧
        (res.calls.map Call.action).count "<fsm.ActionFunc Value>" ≤ 1 ∧
        ∃ pre post, r.order = pre ++ ⟨"<fsm.ActionFunc Value>", actOk 2⟩ :: post ∧
          ((∀ p ∈ pre, errorOf p = none) →
            callOf ⟨"<fsm.ActionFunc Value>", actOk 2⟩ ∈ res.calls) :=
  ⟨rfl, rfl, AddTx_same_key_replaces fsmBoom (actOk 1) (actOk 2) [] []
    "<fsm.ActionFunc Value>" rfl rfl⟩

/-! ## Frame and argument claims -/

/-- C10: when no option is stored under the key of `f` (as in the zero value),
`AddTx(f)` with no options leaves an empty option list under that key. -/
theorem AddTx_no_options (fsm : FSM) (f : ActionFunc)
    (h : optsAt fsm.TxsOpts (reflectValueString f) = []) :
    ∃ fsm', AddTx fsm f [] = .ok fsm' ∧
      optsAt fsm'.TxsOpts (reflectValueString f) = [] ∧
      (optsAt fsm'.TxsOpts (reflectValueString f)).length = 0 := by
  have hk : optsAt (.made fsm.TxsOpts.table) (reflectValueString f) = [] := by
    rw [optsAt_made, optsAt_table]
    exact h
  refine ⟨_, AddTx_eq fsm f [], ?_, ?_⟩
  · simpa using hk
  · simpa using congrArg List.length hk

/-- C10 at the zero value `FSM{}` with `f = actOk 1`. -/
theorem AddTx_no_options_witness :
    optsAt FSM.zero.TxsOpts (reflectValueString (actOk 1)) = [] ∧
    ∃ fsm', AddTx FSM.zero (actOk 1) [] = .ok fsm' ∧
      optsAt fsm'.TxsOpts (reflectValueString (actOk 1)) = [] ∧
      (optsAt fsm'.TxsOpts (reflectValueString (actOk 1))).length = 0 :=
  ⟨rfl, AddTx_no_options FSM.zero (actOk 1) rfl⟩

/-! ## Claims about `AddTx` -/

theorem lookup_made_insert_ne {V : Type} (m : GoMap V) (k k' : String) (v : V) (h : k' ≠ k) :
    (GoMap.made (m.table.insert k v)).lookup k' = m.lookup k' := by
  cases m with
  | nil =>
    show AList.lookup k' (AList.insert k v (∅ : AList (fun _ : String => V))) = none
    rw [AList.lookup_insert_ne h]
    exact AList.lookup_empty k'
  | made t =>
    show AList.lookup k' (AList.insert k v t) = AList.lookup k' t
    exact AList.lookup_insert_ne h

theorem lookup_made_table {V : Type} (m : GoMap V) (k : String) :
    (GoMap.made m.table).lookup k = m.lookup k := by
  cases m <;> rfl

/-- C12: whatever the FSM (the zero value with its nil maps included), the function
and the options, `AddTx` returns without a panic; afterwards `Txs` and `TxsOpts` are
non-nil and `Txs` maps the key of the function to it. -/
theorem AddTx_never_panics (fsm : FSM) (f : ActionFunc) (opts : List Opt) :
    ∃ fsm', AddTx fsm f opts = .ok fsm' ∧
      fsm'.Txs.isNil = false ∧ fsm'.TxsOpts.isNil = false ∧
      fsm'.Txs.lookup (reflectValueString f) = some f ∧
      (⟨reflectValueString f, f⟩ : Entry ActionFunc) ∈ fsm'.Txs.entries := by
  have hl : (GoMap.made (fsm.Txs.table.insert (reflectValueString f) f)).lookup
      (reflectValueString f) = some f := AList.lookup_insert _
  exact ⟨_, AddTx_eq fsm f opts, rfl, rfl, hl, (GoMap.mem_entries_iff _ _ _).mpr hl⟩

/-! ## Traversal order, slice bounds and the single key -/

/-- C14: the result of `TxBuilder` depends on the traversal order: the map of `fsmOk`
has two entries, and visiting them as a, c or as c, a gives different statuses. -/
theorem TxBuilder_depends_on_order :
    ∃ (fsm : FSM) (r1 r2 : RangeOrder fsm.Txs) (res1 res2 : TxResult),
      fsm.Txs.len = 2 ∧ TxBuilder fsm r1 = .ok res1 ∧ TxBuilder fsm r2 = .ok res2 ∧
      (res1.status, res1.e) = (3, none) ∧ (res2.status, res2.e) = (1, none) ∧
      (res1.status, res1.e) ≠ (res2.status, res2.e) := by
  refine ⟨fsmOk, RangeOrder.stored fsmOk.Txs, okReversed, _, _, rfl, rfl, rfl, rfl, rfl, ?_⟩
  intro h
  have h3 : (3 : Int) = 1 := congrArg Prod.fst h
  omega

/-- A slice of length `n + 1`, `n` not negative, can be read at `n`. -/
theorem sliceIndex_in_bounds (statuses : List Status) (n : Int) (h0 : 0 ≤ n)
    (h : (statuses.length : Int) = n + 1) : ∃ s, sliceIndex statuses n = .ok s := by
  have hn : ¬ n < 0 := by omega
  have hlt : n.toNat < statuses.length := by omega
  refine ⟨statuses[n.toNat], ?_⟩
  simp [sliceIndex, hn, List.getElem?_eq_getElem hlt]

/-- The loop keeps `0 ≤ n` and `len(statuses) = n + 1` at its head. -/
theorem heads_invariant :
    ∀ (order : List (Entry ActionFunc)) (statuses : List Status) (n : Int),
      0 ≤ n → (statuses.length : Int) = n + 1 →
      ∀ h ∈ TxBuilderHeads order statuses n, 0 ≤ h.2 ∧ (h.1.length : Int) = h.2 + 1 := by
  intro order
  induction order with
  | nil =>
    intro statuses n h0 hinv h hh
    simp only [TxBuilderHeads, List.mem_singleton] at hh
    rw [hh]
    exact ⟨h0, hinv⟩
  | cons x rest ih =>
    intro statuses n h0 hinv h hh
    simp only [TxBuilderHeads, List.mem_cons] at hh
    rcases hh with hh | hh
    · rw [hh]
      exact ⟨h0, hinv⟩
    · cases hx : (x.2 [Opt.str x.1]).2 with
      | some err =>
        rw [hx] at hh
        cases hh
      | none =>
        rw [hx] at hh
        refine ih (statuses ++ [(x.2 [Opt.str x.1]).1]) (n + 1) (by omega) ?_ h hh
        simp only [List.length_append, List.length_singleton, Nat.cast_add, Nat.cast_one]
        omega

/-- The status the loop returns is read from `statuses` at `n`, both taken at the
last head the loop reached. -/
theorem loop_reads_last_head (fsm : FSM) :
    ∀ (order : List (Entry ActionFunc)) (statuses : List Status) (n : Int) (calls : List Call)
      (res : TxResult), TxBuilderLoop fsm order statuses n calls = .ok res →
      ∃ h, (TxBuilderHeads order statuses n).getLast? = some h ∧
        sliceIndex h.1 h.2 = .ok res.status := by
  intro order
  induction order with
  | nil =>
    intro statuses n calls res hres
    refine ⟨(statuses, n), rfl, ?_⟩
    simp only [TxBuilderLoop] at hres
    cases hs : sliceIndex statuses n with
    | error p => simp [hs] at hres
    | ok s =>
      simp only [hs, Except.ok.injEq] at hres
      rw [← hres]
  | cons x rest ih =>
    intro statuses n calls res hres
    simp only [TxBuilderLoop] at hres
    cases hx : (x.2 [Opt.str x.1]).2 with
    | some err =>
      have hn : n + 1 - 1 = n := by omega
      simp only [hx, hn] at hres
      refine ⟨(statuses, n), by simp [TxBuilderHeads, hx], ?_⟩
      cases hs : sliceIndex statuses n with
      | error p => simp [hs] at hres
      | ok s =>
        simp only [hs, Except.ok.injEq] at hres
        rw [← hres]
    | none =>
      simp only [hx] at hres
      obtain ⟨h, hlast, hread⟩ := ih _ _ _ res hres
      refine ⟨h, ?_, hread⟩
      simp only [TxBuilderHeads, hx]
      cases hl : TxBuilderHeads rest (statuses ++ [(x.2 [Opt.str x.1]).1]) (n + 1) with
      | nil =>
        rw [hl] at hlast
        cases hlast
      | cons a l =>
        rw [hl] at hlast
        rw [List.getLast?_cons_cons]
        exact hlast

/-- C15: whatever the FSM, the traversal order and the actions, each time the loop
of `TxBuilder` is at its head `len(statuses) = n + 1`: in the iteration that
follows, after `n += 1`, `len(statuses) = n` and `statuses[n-1]` exists; at the
exit `statuses[n]` exists. `TxBuilder` returns, without an index panic, a status
read at the last head reached. -/
theorem TxBuilder_index_in_bounds (fsm : FSM) (r : RangeOrder fsm.Txs) :
    (∀ h ∈ TxBuilderHeads r.order ([] ++ [fsm.Status]) 0,
      0 ≤ h.2 ∧ (h.1.length : Int) = h.2 + 1 ∧
      (∃ s, sliceIndex h.1 ((h.2 + 1) - 1) = .ok s) ∧ ∃ s, sliceIndex h.1 h.2 = .ok s) ∧
    ∃ res h, TxBuilder fsm r = .ok res ∧
      (TxBuilderHeads r.order ([] ++ [fsm.Status]) 0).getLast? = some h ∧
      sliceIndex h.1 h.2 = .ok res.status := by
  constructor
  · intro h hh
    obtain ⟨h0, hinv⟩ :=
      heads_invariant r.order ([] ++ [fsm.Status]) 0 (le_refl 0) (by simp) h hh
    have hn : h.2 + 1 - 1 = h.2 := by omega
    rw [hn]
    exact ⟨h0, hinv, sliceIndex_in_bounds h.1 h.2 h0 hinv, sliceIndex_in_bounds h.1 h.2 h0 hinv⟩
  · obtain ⟨res, _, hres, _⟩ := TxBuilder_total fsm r
    obtain ⟨h, hlast, hread⟩ := loop_reads_last_head fsm r.order _ _ _ res hres
    exact ⟨res, h, hres, hlast, hread⟩

/-- The effect on `Txs` and `Status` of a sequence of registrations: the last
function registered sits under the one key. -/
theorem AddTxAll_Txs :
    ∀ (regs : List (ActionFunc × List Opt)) (fsm : FSM),
      ∃ fsm', AddTxAll fsm regs = .ok fsm' ∧ fsm'.Status = fsm.Status ∧
        fsm'.Txs = (match regs.getLast? with
          | none => fsm.Txs
          | some last => .made (fsm.Txs.table.insert "<fsm.ActionFunc Value>" last.1)) := by
  intro regs
  induction regs with
  | nil =>
    intro fsm
    exact ⟨fsm, rfl, rfl, rfl⟩
  | cons reg rest ih =>
    intro fsm
    obtain ⟨f, opts⟩ := reg
    obtain ⟨fsm', h', hs', ht'⟩ := ih
      { Txs := .made (fsm.Txs.table.insert (reflectValueString f) f),
        TxsOpts := .made (if opts = [] then fsm.TxsOpts.table
                          else fsm.TxsOpts.table.insert (reflectValueString f)
                            (optsAt fsm.TxsOpts (reflectValueString f) ++ opts)),
        Status := fsm.Status }
    refine ⟨fsm', ?_, hs', ?_⟩
    · simp only [AddTxAll, AddTx_eq]
      exact h'
    · rw [ht']
      cases rest with
      | nil => rfl
      | cons b l =>
        have hlast : (b :: l).getLast? = some ((b :: l).getLast (List.cons_ne_nil _ _)) :=
          List.getLast?_eq_getLast _ _
        simp only [List.getLast?_cons_cons, hlast, GoMap.table, reflectValueString,
          AList.insert_insert]

/-- C17: `AddTx` derives the same key, `"<fsm.ActionFunc Value>"`, from every
`ActionFunc`. Hence after any sequence of `AddTx` calls on the zero value `Txs` has
at most one entry; when there was a call, the entry is the function registered
last, and `TxBuilder` calls that function only, once, and returns its result: its
status and nil, or `fsm.Status` (still 0) and its error. -/
theorem AddTx_single_key :
    (∀ f : ActionFunc, reflectValueString f = "<fsm.ActionFunc Value>") ∧
    ∀ regs : List (ActionFunc × List Opt),
      ∃ fsm, AddTxAll FSM.zero regs = .ok fsm ∧ fsm.Txs.len ≤ 1 ∧ fsm.Status = 0 ∧
        (regs = [] → fsm.Txs.len = 0) ∧
        ∀ g opts, regs.getLast? = some (g, opts) →
          fsm.Txs.entries = [⟨"<fsm.ActionFunc Value>", g⟩] ∧
          ∀ r : RangeOrder fsm.Txs, ∃ res, TxBuilder fsm r = .ok res ∧
            res.calls = [{ action := "<fsm.ActionFunc Value>", f := g,
                           opts := [Opt.str "<fsm.ActionFunc Value>"] }] ∧
            ((g [Opt.str "<fsm.ActionFunc Value>"]).2 = none →
              res.status = (g [Opt.str "<fsm.ActionFunc Value>"]).1 ∧ res.e = none) ∧
            ∀ err, (g [Opt.str "<fsm.ActionFunc Value>"]).2 = some err →
              res.status = fsm.Status ∧ res.e = some err := by
  refine ⟨fun _ => rfl, ?_⟩
  intro regs
  obtain ⟨fsm, hfsm, hst, hTxs⟩ := AddTxAll_Txs regs FSM.zero
  have hent : ∀ g opts, regs.getLast? = some (g, opts) →
      fsm.Txs.entries = [⟨"<fsm.ActionFunc Value>", g⟩] := by
    intro g opts hlast
    rw [hTxs, hlast]
    rfl
  refine ⟨fsm, hfsm, ?_, hst, ?_, ?_⟩
  · cases hlast : regs.getLast? with
    | none =>
      rw [hlast] at hTxs
      simp [GoMap.len, hTxs, FSM.zero, GoMap.entries]
    | some last =>
      simp [GoMap.len, hent last.1 last.2 hlast]
  · intro hnil
    rw [hnil] at hTxs
    simp [GoMap.len, hTxs, FSM.zero, GoMap.entries]
  · intro g opts hlast
    have he := hent g opts hlast
    refine ⟨he, ?_⟩
    intro r
    have hp := r.perm
    rw [he] at hp
    have hl : r.order = [⟨"<fsm.ActionFunc Value>", g⟩] := List.perm_singleton.mp hp
    refine ⟨_, TxBuilder_single fsm r _ hl, rfl, ?_, ?_⟩
    · intro hnone
      have hnone' : errorOf ⟨"<fsm.ActionFunc Value>", g⟩ = none := hnone
      simp only [hnone', if_true]
      exact ⟨rfl, trivial⟩
    · intro err herr
      have herr' : errorOf ⟨"<fsm.ActionFunc Value>", g⟩ = some err := herr
      simp [herr']

/-! ## `TxBuilder` with closures that may write the receiver -/

namespace Eff

/-- With `len(statuses) = n + 1` at its head the loop returns. -/
theorem loop_returns {W : Type} :
    ∀ (order : List (Entry (ActionFunc W))) (init : List Status) (s : Status) (w : W),
      ∃ res, TxBuilderLoop order (init ++ [s]) (init.length : Int) w = .ok res := by
  intro order
  induction order with
  | nil =>
    intro init s w
    simp [TxBuilderLoop, sliceIndex_last]
  | cons x rest ih =>
    intro init s w
    simp only [TxBuilderLoop]
    cases hx : (x.2 [Opt.str x.1] w).1.2 with
    | some err =>
      have hn : (init.length : Int) + 1 - 1 = init.length := by omega
      simp [hn, sliceIndex_last]
    | none =>
      have step := ih (init ++ [s]) (x.2 [Opt.str x.1] w).1.1 (x.2 [Opt.str x.1] w).2
      have hlen : (((init ++ [s]).length : Nat) : Int) = (init.length : Int) + 1 := by simp
      rw [hlen] at step
      exact step

/-- When no action writes the receiver, the loop leaves the receiver as it was. -/
theorem loop_keeps_receiver {W : Type} (recv : W → FSM W) :
    ∀ (order : List (Entry (ActionFunc W))),
      (∀ x ∈ order, ∀ w', recv (x.2 [Opt.str x.1] w').2 = recv w') →
      ∀ (statuses : List Status) (n : Int) (w : W) (res : TxResult W),
        TxBuilderLoop order statuses n w = .ok res → recv res.world = recv w := by
  intro order
  induction order with
  | nil =>
    intro _ statuses n w res hres
    simp only [TxBuilderLoop] at hres
    cases hs : sliceIndex statuses n with
    | error p => simp [hs] at hres
    | ok s =>
      simp only [hs, Except.ok.injEq] at hres
      rw [← hres]
  | cons x rest ih =>
    intro hnw statuses n w res hres
    have hx := hnw x (List.mem_cons_self _ _) w
    have hrest : ∀ y ∈ rest, ∀ w', recv (y.2 [Opt.str y.1] w').2 = recv w' :=
      fun y hy => hnw y (List.mem_cons_of_mem _ hy)
    simp only [TxBuilderLoop] at hres
    cases he : (x.2 [Opt.str x.1] w).1.2 with
    | none =>
      simp only [he] at hres
      exact (ih hrest _ _ _ res hres).trans hx
    | some err =>
      have hn : n + 1 - 1 = n := by omega
      simp only [he, hn] at hres
      cases hs : sliceIndex statuses n with
      | error p => simp [hs] at hres
      | ok s =>
        simp only [hs, Except.ok.injEq] at hres
        rw [← hres]
        exact hx

/-- Started in two program states with the same receiver, the loop returns the
same status and error, when no action writes the receiver and the results of the
actions depend on the receiver alone. -/
theorem loop_same_results {W : Type} (recv : W → FSM W) :
    ∀ (order : List (Entry (ActionFunc W))),
      (∀ x ∈ order, ∀ w', recv (x.2 [Opt.str x.1] w').2 = recv w') →
      (∀ x ∈ order, ∀ w1 w2, recv w1 = recv w2 →
        (x.2 [Opt.str x.1] w1).1 = (x.2 [Opt.str x.1] w2).1) →
      ∀ (statuses : List Status) (n : Int) (w1 w2 : W) (res1 : TxResult W),
        recv w1 = recv w2 → TxBuilderLoop order statuses n w1 = .ok res1 →
        ∃ res2, TxBuilderLoop order statuses n w2 = .ok res2 ∧
          res2.status = res1.status ∧ res2.e = res1.e := by
  intro order
  induction order with
  | nil =>
    intro _ _ statuses n w1 w2 res1 _ hres
    simp only [TxBuilderLoop] at hres ⊢
    cases hs : sliceIndex statuses n with
    | error p => simp [hs] at hres
    | ok s =>
      simp only [hs, Except.ok.injEq] at hres
      exact ⟨_, rfl, by rw [← hres], by rw [← hres]⟩
  | cons x rest ih =>
    intro hnw hdet statuses n w1 w2 res1 hw hres
    have hx := hdet x (List.mem_cons_self _ _) w1 w2 hw
    have hw' : recv (x.2 [Opt.str x.1] w1).2 = recv (x.2 [Opt.str x.1] w2).2 := by
      rw [hnw x (List.mem_cons_self _ _) w1, hnw x (List.mem_cons_self _ _) w2]
      exact hw
    have hnw' : ∀ y ∈ rest, ∀ w', recv (y.2 [Opt.str y.1] w').2 = recv w' :=
      fun y hy => hnw y (List.mem_cons_of_mem _ hy)
    have hdet' : ∀ y ∈ rest, ∀ w1 w2, recv w1 = recv w2 →
        (y.2 [Opt.str y.1] w1).1 = (y.2 [Opt.str y.1] w2).1 :=
      fun y hy => hdet y (List.mem_cons_of_mem _ hy)
    simp only [TxBuilderLoop] at hres ⊢
    rw [← hx]
    cases he : (x.2 [Opt.str x.1] w1).1.2 with
    | none =>
      simp only [he] at hres ⊢
      exact ih hnw' hdet' _ _ _ _ res1 hw' hres
    | some err =>
      have hn : n + 1 - 1 = n := by omega
      simp only [he, hn] at hres ⊢
      cases hs : sliceIndex statuses n with
      | error p => simp [hs] at hres
      | ok s =>
        simp only [hs, Except.ok.injEq] at hres
        exact ⟨_, rfl, by rw [← hres], by rw [← hres]⟩

/-- The first model is this one restricted to actions that write nothing: on such
actions both loops return the same status and error, and the state is kept. -/
theorem loop_quiet {W : Type} (fsm : GoFsm.FSM) :
    ∀ (order : List (Entry GoFsm.ActionFunc)) (statuses : List Status) (n : Int)
      (calls : List Call) (w : W) (res : GoFsm.TxResult),
      GoFsm.TxBuilderLoop fsm order statuses n calls = .ok res →
      TxBuilderLoop (order.map quiet) statuses n w =
        .ok { status := res.status, e := res.e, world := w } := by
  intro order
  induction order with
  | nil =>
    intro statuses n calls w res hres
    simp only [GoFsm.TxBuilderLoop] at hres
    simp only [List.map_nil, TxBuilderLoop]
    cases hs : sliceIndex statuses n with
    | error p => simp [hs] at hres
    | ok s =>
      simp only [hs, Except.ok.injEq] at hres
      rw [← hres]
  | cons x rest ih =>
    intro statuses n calls w res hres
    simp only [GoFsm.TxBuilderLoop] at hres
    simp only [List.map_cons, TxBuilderLoop, quiet]
    cases he : (x.2 [Opt.str x.1]).2 with
    | none =>
      simp only [he] at hres ⊢
      exact ih _ _ _ w res hres
    | some err =>
      have hn : n + 1 - 1 = n := by omega
      simp only [he, hn] at hres ⊢
      cases hs : sliceIndex statuses n with
      | error p => simp [hs] at hres
      | ok s =>
        simp only [hs, Except.ok.injEq] at hres
        rw [← hres]

/-- C9 as stated fails: the one action of `recvBump` writes 99 to `fsm.Status` and
fails. Called with `Status = 0`, `TxBuilder` returns `(0, e)` and leaves
`Status = 99`; called again it returns `(99, e)`. -/
theorem TxBuilder_action_writes_receiver :
    ∃ res, TxBuilder recvBump 0 (RangeOrder.stored (recvBump 0).Txs) = .ok res ∧
      (recvBump 0).Status = 0 ∧ (recvBump res.world).Status = 99 ∧
      (res.status, res.e) = (0, some { msg := "e" }) ∧
      ∃ res2, TxBuilder recvBump res.world (RangeOrder.stored (recvBump res.world).Txs)
          = .ok res2 ∧
        (res2.status, res2.e) = (99, some { msg := "e" }) ∧
        (res2.status, res2.e) ≠ (res.status, res.e) := by
  refine ⟨_, rfl, rfl, rfl, rfl, _, rfl, rfl, ?_⟩
  intro h
  have h99 : (99 : Int) = 0 := congrArg Prod.fst h
  omega

/-- C9, amended: `TxBuilder` itself does not write to the registry. When none of the
registered actions writes the receiver, `TxBuilder` returns, with or without an
error, and `fsm.Status`, `fsm.Txs` and `fsm.TxsOpts` are what they were before the
call; when moreover the results of the actions are determined by their argument
and the receiver, a second call visiting the entries in the same order returns
the same status and error, from the same seed. -/
theorem TxBuilder_frame_without_writes {W : Type} (recv : W → FSM W) (w : W)
    (r : RangeOrder (recv w).Txs)
    (hnw : ∀ x ∈ r.order, ∀ w', recv (x.2 [Opt.str x.1] w').2 = recv w') :
    ∃ res, TxBuilder recv w r = .ok res ∧
      (recv res.world).Status = (recv w).Status ∧ (recv res.world).Txs = (recv w).Txs ∧
      (recv res.world).TxsOpts = (recv w).TxsOpts ∧
      ((∀ x ∈ r.order, ∀ w1 w2, recv w1 = recv w2 →
          (x.2 [Opt.str x.1] w1).1 = (x.2 [Opt.str x.1] w2).1) →
        ∀ r2 : RangeOrder (recv res.world).Txs, r2.order = r.order →
          ∃ res2, TxBuilder recv res.world r2 = .ok res2 ∧
            res2.status = res.status ∧ res2.e = res.e ∧
            (recv res2.world).Status = (recv w).Status) := by
  obtain ⟨res, hres⟩ := loop_returns r.order [] (recv w).Status w
  have hkeep : recv res.world = recv w := loop_keeps_receiver recv r.order hnw _ _ _ res hres
  refine ⟨res, hres, by rw [hkeep], by rw [hkeep], by rw [hkeep], ?_⟩
  intro hdet r2 h2
  obtain ⟨res2, hres2, hs2, he2⟩ :=
    loop_same_results recv r.order hnw hdet _ _ w res.world res hkeep.symm hres
  have hkeep2 : recv res2.world = recv res.world :=
    loop_keeps_receiver recv r.order hnw _ _ _ res2 hres2
  refine ⟨res2, ?_, hs2, he2, by rw [hkeep2, hkeep]⟩
  unfold TxBuilder
  rw [h2, hkeep]
  exact hres2

/-- C9, amended, at `recvCalm` with `Status = 7`: its action writes nothing. -/
theorem TxBuilder_frame_without_writes_witness :
    (∀ x ∈ (RangeOrder.stored (recvCalm 7).Txs).order, ∀ w',
      recvCalm (x.2 [Opt.str x.1] w').2 = recvCalm w') ∧
    ∃ res, TxBuilder recvCalm 7 (RangeOrder.stored (recvCalm 7).Txs) = .ok res ∧
      (recvCalm res.world).Status = (recvCalm 7).Status ∧
      (recvCalm res.world).Txs = (recvCalm 7).Txs ∧
      (recvCalm res.world).TxsOpts = (recvCalm 7).TxsOpts ∧
      ((∀ x ∈ (RangeOrder.stored (recvCalm 7).Txs).order, ∀ w1 w2, recvCalm w1 = recvCalm w2 →
          (x.2 [Opt.str x.1] w1).1 = (x.2 [Opt.str x.1] w2).1) →
        ∀ r2 : RangeOrder (recvCalm res.world).Txs,
          r2.order = (RangeOrder.stored (recvCalm 7).Txs).order →
          ∃ res2, TxBuilder recvCalm res.world r2 = .ok res2 ∧
            res2.status = res.status ∧ res2.e = res.e ∧
            (recvCalm res2.world).Status = (recvCalm 7).Status) :=
  have hnw : ∀ x ∈ (RangeOrder.stored (recvCalm 7).Txs).order, ∀ w',
      recvCalm (x.2 [Opt.str x.1] w').2 = recvCalm w' := by
    intro x hx w'
    have hx' : x = ⟨"a", actCalm⟩ := by
      have : x ∈ [(⟨"a", actCalm⟩ : Entry (ActionFunc Int))] := hx
      simpa using this
    rw [hx']
    rfl
  ⟨hnw, TxBuilder_frame_without_writes recvCalm 7 (RangeOrder.stored (recvCalm 7).Txs) hnw⟩

end Eff

/-! ## `AddTx` with slices in memory -/

namespace Mem

theorem goAppend_next (grow : Nat → Nat) (h : Heap) (s : Slice) (v : Opt) :
    h.next ≤ (goAppend grow h s v).2.next := by
  unfold goAppend
  split <;> simp

/-- `append` writes only into the spare capacity of its slice and into the new
array. -/
theorem goAppend_frame (grow : Nat → Nat) (h : Heap) (s : Slice) (v : Opt) (a j : Nat)
    (ha : a < h.next) (hs : ¬ s.spare a j) :
    (goAppend grow h s v).2.cells a j = h.cells a j := by
  unfold goAppend
  split
  · rename_i hlt
    have hne : ¬ (a = s.arr ∧ j = s.off + s.len) := by
      rintro ⟨h1, h2⟩
      exact hs ⟨h1, by omega, by omega⟩
    simp [hne]
  · have hne : a ≠ h.next := by omega
    simp [hne]

/-- Within the arrays allocated before, the spare capacity of the result of `append`
is part of the spare capacity of its argument. -/
theorem goAppend_spare (grow : Nat → Nat) (h : Heap) (s : Slice) (v : Opt) (a j : Nat)
    (ha : a < h.next) (hsp : (goAppend grow h s v).1.spare a j) : s.spare a j := by
  unfold goAppend at hsp
  split at hsp
  · obtain ⟨h1, h2, h3⟩ := hsp
    simp only at h1 h2 h3
    exact ⟨h1, by omega, h3⟩
  · obtain ⟨h1, _, _⟩ := hsp
    simp only at h1
    omega

/-- The elements of `append(s, v)` are those of `s` followed by `v`. -/
theorem goAppend_view (grow : Nat → Nat) (h : Heap) (s : Slice) (v : Opt) :
    (goAppend grow h s v).2.view (goAppend grow h s v).1 = h.view s ++ [v] := by
  unfold goAppend
  split
  · simp only [Heap.view, List.range_succ, List.map_append, List.map_singleton]
    congr 1
    · apply List.map_congr_left
      intro i hi
      have hi' : i < s.len := List.mem_range.mp hi
      have hne : ¬ (s.off + i = s.off + s.len) := by omega
      simp [Heap.read, hne]
    · simp [Heap.read]
  · simp only [Heap.view, List.range_succ, List.map_append, List.map_singleton]
    congr 1
    · apply List.map_congr_left
      intro i hi
      have hi' : i < s.len := List.mem_range.mp hi
      simp [Heap.read, hi']
    · simp [Heap.read]

theorem sliceAt_made_insert (t : AList (fun _ : String => Slice)) (k : String) (s : Slice) :
    sliceAt (.made (t.insert k s)) k = s := by
  simp [sliceAt, GoMap.lookup, AList.lookup_insert]

theorem sliceAt_made_table (m : GoMap Slice) (k : String) :
    sliceAt (.made m.table) k = sliceAt m k := by
  cases m <;> rfl

/-- The loop of lines 42-44 on an allocated map. It never panics. It writes only
into the spare capacity of the slice stored under `k` and into new arrays; it
leaves the slices of the other keys and removes no key; the slice under `k` gets
one element more per iteration after those it had; and these are the elements of
`opts` when none of them lies in that spare capacity. -/
theorem appendOpts_spec (grow : Nat → Nat) (k : String) (opts : Slice) :
    ∀ (is : List Nat) (t : AList (fun _ : String => Slice)) (h : Heap),
      ∃ t' h' vals, appendOpts grow k opts is (.made t) h = .ok (.made t', h') ∧
        h.next ≤ h'.next ∧
        (∀ a j, a < h.next → ¬ (sliceAt (.made t) k).spare a j → h'.cells a j = h.cells a j) ∧
        (∀ k', k' ≠ k → t'.lookup k' = t.lookup k') ∧
        (∀ k', (t.lookup k').isSome → (t'.lookup k').isSome) ∧
        vals.length = is.length ∧
        h'.view (sliceAt (.made t') k) = h.view (sliceAt (.made t) k) ++ vals ∧
        (opts.arr < h.next → (sliceAt (.made t) k).clearOf opts → (∀ i ∈ is, i < opts.len) →
          vals = is.map (h.read opts)) := by
  intro is
  induction is with
  | nil =>
    intro t h
    exact ⟨t, h, [], rfl, le_refl _, fun _ _ _ _ => rfl, fun _ _ => rfl, fun _ hk => hk, rfl,
      by simp, fun _ _ _ => rfl⟩
  | cons i rest ih =>
    intro t h
    obtain ⟨t', h', vals', hrun, hnext, hframe, hother, hsome, hlen, hview, hvals⟩ :=
      ih (t.insert k (goAppend grow h (sliceAt (.made t) k) (h.read opts i)).1)
        (goAppend grow h (sliceAt (.made t) k) (h.read opts i)).2
    rw [sliceAt_made_insert] at hframe hview hvals
    have hn1 := goAppend_next grow h (sliceAt (.made t) k) (h.read opts i)
    refine ⟨t', h', h.read opts i :: vals', ?_, le_trans hn1 hnext, ?_, ?_, ?_, ?_, ?_, ?_⟩
    · simp only [appendOpts, GoMap.store]
      exact hrun
    · intro a j ha hsp
      rw [hframe a j (lt_of_lt_of_le ha hn1)
        (fun hsp1 => hsp (goAppend_spare grow h _ _ a j ha hsp1))]
      exact goAppend_frame grow h _ _ a j ha hsp
    · intro k' hk'
      rw [hother k' hk']
      exact AList.lookup_insert_ne hk'
    · intro k' hk
      apply hsome
      by_cases hkk : k' = k
      · rw [hkk, AList.lookup_insert]
        rfl
      · rw [AList.lookup_insert_ne hkk]
        exact hk
    · simp [hlen]
    · rw [hview, goAppend_view]
      simp
    · intro harr hclear hbound
      have hclear1 : (goAppend grow h (sliceAt (.made t) k) (h.read opts i)).1.clearOf opts := by
        intro i' hi' hsp1
        exact hclear i' hi' (goAppend_spare grow h _ _ _ _ harr hsp1)
      have hrest : ∀ i' ∈ rest, i' < opts.len :=
        fun i' hi' => hbound i' (List.mem_cons_of_mem _ hi')
      rw [hvals (lt_of_lt_of_le harr hn1) hclear1 hrest, List.map_cons]
      congr 1
      apply List.map_congr_left
      intro i' hi'
      exact goAppend_frame grow h _ _ _ _ harr (hclear i' (hrest i' hi'))

/-- `AddTx` with slices in memory never panics; what it does to the fields and to the
arrays, `k` being the key of `f`. -/
theorem AddTx_spec (grow : Nat → Nat) (fsm : FSM) (h : Heap) (f : ActionFunc) (opts : Slice) :
    ∃ fsm' h' vals, AddTx grow fsm h f opts = .ok (fsm', h') ∧
      fsm'.Status = fsm.Status ∧
      fsm'.Txs = .made (fsm.Txs.table.insert (reflectValueString f) f) ∧
      (∀ a j, a < h.next → ¬ (sliceAt fsm.TxsOpts (reflectValueString f)).spare a j →
        h'.cells a j = h.cells a j) ∧
      (∀ k', k' ≠ reflectValueString f → fsm'.TxsOpts.lookup k' = fsm.TxsOpts.lookup k') ∧
      (∀ k', (fsm.TxsOpts.lookup k').isSome → (fsm'.TxsOpts.lookup k').isSome) ∧
      vals.length = opts.len ∧
      h'.view (sliceAt fsm'.TxsOpts (reflectValueString f)) =
        h.view (sliceAt fsm.TxsOpts (reflectValueString f)) ++ vals ∧
      (opts.arr < h.next → (sliceAt fsm.TxsOpts (reflectValueString f)).clearOf opts →
        vals = h.view opts) := by
  by_cases ho : opts = Slice.nil
  · refine ⟨{ Txs := .made (fsm.Txs.table.insert (reflectValueString f) f),
              TxsOpts := .made fsm.TxsOpts.table, Status := fsm.Status }, h, [], ?_, rfl, rfl,
      fun _ _ _ _ => rfl, fun k' _ => lookup_made_table fsm.TxsOpts k', ?_, ?_, ?_, ?_⟩
    · simp [AddTx, AddTxAt, made_after_make, GoMap.store, ho]
    · intro k' hk
      rw [lookup_made_table]
      exact hk
    · rw [ho]
      rfl
    · rw [sliceAt_made_table]
      simp
    · intro _ _
      rw [ho]
      rfl
  · obtain ⟨t', h', vals, hrun, _, hframe, hother, hsome, hlen, hview, hvals⟩ :=
      appendOpts_spec grow (reflectValueString f) opts (List.range opts.len) fsm.TxsOpts.table h
    rw [sliceAt_made_table] at hframe hview hvals
    refine ⟨{ Txs := .made (fsm.Txs.table.insert (reflectValueString f) f),
              TxsOpts := .made t', Status := fsm.Status }, h', vals, ?_, rfl, rfl, hframe, ?_, ?_,
      by simpa using hlen, hview, ?_⟩
    · simp [AddTx, AddTxAt, made_after_make, GoMap.store, ho, hrun]
    · intro k' hk'
      have := hother k' hk'
      simp only [GoMap.lookup, this]
      exact lookup_made_table fsm.TxsOpts k'
    · intro k' hk
      rw [← lookup_made_table] at hk
      exact hsome k' hk
    · intro harr hclear
      exact hvals harr hclear (fun i hi => List.mem_range.mp hi)

/-- C11 as stated fails: the stored list is `(1)` on an array with room for three
and `opts` is `(1, 2)` on the same array. The first `append` writes over `opts[1]`
before it is read, and `AddTx` leaves `(1, 1, 1)`, not `(1, 1, 2)`. -/
theorem AddTx_append_overwrites_opts :
    ∃ fsm' h', AddTx double fsmShared heapShared (actOk 1) optsShared = .ok (fsm', h') ∧
      heapShared.view (sliceAt fsmShared.TxsOpts (reflectValueString (actOk 1))) = [Opt.int 1] ∧
      heapShared.view optsShared = [Opt.int 1, Opt.int 2] ∧
      h'.view (sliceAt fsm'.TxsOpts (reflectValueString (actOk 1))) =
        [Opt.int 1, Opt.int 1, Opt.int 1] ∧
      h'.view (sliceAt fsm'.TxsOpts (reflectValueString (actOk 1))) ≠
        heapShared.view (sliceAt fsmShared.TxsOpts (reflectValueString (actOk 1)))
          ++ heapShared.view optsShared := by
  refine ⟨_, _, rfl, rfl, rfl, rfl, ?_⟩
  decide

/-- C11, amended: after `AddTx(f, opts...)` the list under the key of `f` is the list
stored before the call (empty when there was none) followed by `len(opts)` further
elements, so the old list is a prefix of the new one, also when the key is
registered again; the further elements are `opts` in the order given whenever no
element of `opts`, a slice of an array allocated in `h`, lies in the spare capacity
of the slice stored before the call. -/
theorem AddTx_appends_in_memory (grow : Nat → Nat) (fsm : FSM) (h : Heap) (f : ActionFunc)
    (opts opts2 : Slice) :
    ∃ fsm' h' vals, AddTx grow fsm h f opts = .ok (fsm', h') ∧ vals.length = opts.len ∧
      h'.view (sliceAt fsm'.TxsOpts (reflectValueString f)) =
        h.view (sliceAt fsm.TxsOpts (reflectValueString f)) ++ vals ∧
      h.view (sliceAt fsm.TxsOpts (reflectValueString f)) <+:
        h'.view (sliceAt fsm'.TxsOpts (reflectValueString f)) ∧
      (opts.arr < h.next → (sliceAt fsm.TxsOpts (reflectValueString f)).clearOf opts →
        h'.view (sliceAt fsm'.TxsOpts (reflectValueString f)) =
          h.view (sliceAt fsm.TxsOpts (reflectValueString f)) ++ h.view opts) ∧
      ∃ fsm'' h'' vals2, AddTx grow fsm' h' f opts2 = .ok (fsm'', h'') ∧
        vals2.length = opts2.len ∧
        h''.view (sliceAt fsm''.TxsOpts (reflectValueString f)) =
          h.view (sliceAt fsm.TxsOpts (reflectValueString f)) ++ vals ++ vals2 ∧
        h'.view (sliceAt fsm'.TxsOpts (reflectValueString f)) <+:
          h''.view (sliceAt fsm''.TxsOpts (reflectValueString f)) := by
  obtain ⟨fsm', h', vals, hrun, _, _, _, _, _, hlen, hview, hvals⟩ :=
    AddTx_spec grow fsm h f opts
  obtain ⟨fsm'', h'', vals2, hrun2, _, _, _, _, _, hlen2, hview2, _⟩ :=
    AddTx_spec grow fsm' h' f opts2
  refine ⟨fsm', h', vals, hrun, hlen, hview, ?_, ?_, fsm'', h'', vals2, hrun2, hlen2, ?_, ?_⟩
  · rw [hview]
    exact List.prefix_append _ _
  · intro harr hclear
    rw [hview, hvals harr hclear]
  · rw [hview2, hview]
  · rw [hview2]
    exact List.prefix_append _ _

/-- C11, amended, at `fsmOther`: the stored list `(1)` has spare capacity on the
array 0 and `opts` is `(99)` on the array 1. -/
theorem AddTx_appends_in_memory_witness :
    optsFresh.arr < heapOther.next ∧
    (sliceAt fsmOther.TxsOpts (reflectValueString (actOk 1))).clearOf optsFresh ∧
    ∃ fsm' h' vals, AddTx double fsmOther heapOther (actOk 1) optsFresh = .ok (fsm', h') ∧
      vals.length = optsFresh.len ∧
      h'.view (sliceAt fsm'.TxsOpts (reflectValueString (actOk 1))) =
        heapOther.view (sliceAt fsmOther.TxsOpts (reflectValueString (actOk 1))) ++ vals ∧
      heapOther.view (sliceAt fsmOther.TxsOpts (reflectValueString (actOk 1))) <+:
        h'.view (sliceAt fsm'.TxsOpts (reflectValueString (actOk 1))) ∧
      (optsFresh.arr < heapOther.next →
        (sliceAt fsmOther.TxsOpts (reflectValueString (actOk 1))).clearOf optsFresh →
        h'.view (sliceAt fsm'.TxsOpts (reflectValueString (actOk 1))) =
          heapOther.view (sliceAt fsmOther.TxsOpts (reflectValueString (actOk 1)))
            ++ heapOther.view optsFresh) ∧
      ∃ fsm'' h'' vals2, AddTx double fsm' h' (actOk 1) Slice.nil = .ok (fsm'', h'') ∧
        vals2.length = Slice.nil.len ∧
        h''.view (sliceAt fsm''.TxsOpts (reflectValueString (actOk 1))) =
          heapOther.view (sliceAt fsmOther.TxsOpts (reflectValueString (actOk 1)))
            ++ vals ++ vals2 ∧
        h'.view (sliceAt fsm'.TxsOpts (reflectValueString (actOk 1))) <+:
          h''.view (sliceAt fsm''.TxsOpts (reflectValueString (actOk 1))) :=
  ⟨by decide, fun _ _ hsp => absurd hsp.1 (by decide),
    AddTx_appends_in_memory double fsmOther heapOther (actOk 1) optsFresh Slice.nil⟩

/-- C16 as stated fails: `"other"` holds the whole array `(1, 2, 3)` and the key of
the actions holds its first element with room for three. `AddTx(f, 99)` appends in
place: the slice under `"other"` is the same window, and now reads `(1, 99, 3)`. -/
theorem AddTx_append_shows_through :
    ∃ fsm' h', AddTx double fsmOther heapOther (actOk 1) optsFresh = .ok (fsm', h') ∧
      "other" ≠ reflectValueString (actOk 1) ∧
      fsmOther.TxsOpts.lookup "other" = some sliceOther ∧
      fsm'.TxsOpts.lookup "other" = some sliceOther ∧
      heapOther.view sliceOther = [Opt.int 1, Opt.int 2, Opt.int 3] ∧
      h'.view sliceOther = [Opt.int 1, Opt.int 99, Opt.int 3] ∧
      h'.view sliceOther ≠ heapOther.view sliceOther := by
  refine ⟨_, _, rfl, by decide, rfl, rfl, rfl, rfl, ?_⟩
  decide

/-- C16, amended: `AddTx(f, opts...)` leaves `Status` as it was; for every key other
than the key of `f`, `Txs` holds the same function and `TxsOpts` the same slice as
before, and the elements of that slice, when it is on an array allocated in `h`,
are the same as before whenever none of them lies in the spare capacity of the
slice stored under the key of `f` before the call; every key present in `Txs` or in
`TxsOpts` before the call is present after it. -/
theorem AddTx_frame_in_memory (grow : Nat → Nat) (fsm : FSM) (h : Heap) (f : ActionFunc)
    (opts : Slice) :
    ∃ fsm' h', AddTx grow fsm h f opts = .ok (fsm', h') ∧ fsm'.Status = fsm.Status ∧
      (∀ k', k' ≠ reflectValueString f →
        fsm'.Txs.lookup k' = fsm.Txs.lookup k' ∧
        fsm'.TxsOpts.lookup k' = fsm.TxsOpts.lookup k' ∧
        ∀ s, fsm.TxsOpts.lookup k' = some s → s.arr < h.next →
          (sliceAt fsm.TxsOpts (reflectValueString f)).clearOf s → h'.view s = h.view s) ∧
      (∀ k', (fsm.Txs.lookup k').isSome → (fsm'.Txs.lookup k').isSome) ∧
      (∀ k', (fsm.TxsOpts.lookup k').isSome → (fsm'.TxsOpts.lookup k').isSome) := by
  obtain ⟨fsm', h', vals, hrun, hst, hTxs, hframe, hother, hsome, _, _, _⟩ :=
    AddTx_spec grow fsm h f opts
  refine ⟨fsm', h', hrun, hst, ?_, ?_, hsome⟩
  · intro k' hk'
    refine ⟨?_, hother k' hk', ?_⟩
    · rw [hTxs]
      exact lookup_made_insert_ne fsm.Txs _ k' f hk'
    · intro s _ harr hclear
      apply List.map_congr_left
      intro i hi
      exact hframe _ _ harr (hclear i (List.mem_range.mp hi))
  · intro k' hk
    rw [hTxs]
    by_cases hkk : k' = reflectValueString f
    · rw [hkk]
      simp [GoMap.lookup, AList.lookup_insert]
    · rw [lookup_made_insert_ne fsm.Txs _ k' f hkk]
      exact hk

/-- C16, amended, at `fsmApart`: `"other"` holds `(1, 2, 3)` and nothing is stored
under the key of the actions. -/
theorem AddTx_frame_in_memory_witness :
    "other" ≠ reflectValueString (actOk 1) ∧
    fsmApart.TxsOpts.lookup "other" = some sliceOther ∧ sliceOther.arr < heapOther.next ∧
    (sliceAt fsmApart.TxsOpts (reflectValueString (actOk 1))).clearOf sliceOther ∧
    ∃ fsm' h', AddTx double fsmApart heapOther (actOk 1) optsFresh = .ok (fsm', h') ∧
      fsm'.Status = fsmApart.Status ∧
      (∀ k', k' ≠ reflectValueString (actOk 1) →
        fsm'.Txs.lookup k' = fsmApart.Txs.lookup k' ∧
        fsm'.TxsOpts.lookup k' = fsmApart.TxsOpts.lookup k' ∧
        ∀ s, fsmApart.TxsOpts.lookup k' = some s → s.arr < heapOther.next →
          (sliceAt fsmApart.TxsOpts (reflectValueString (actOk 1))).clearOf s →
          h'.view s = heapOther.view s) ∧
      (∀ k', (fsmApart.Txs.lookup k').isSome → (fsm'.Txs.lookup k').isSome) ∧
      (∀ k', (fsmApart.TxsOpts.lookup k').isSome → (fsm'.TxsOpts.lookup k').isSome) :=
  ⟨by decide, rfl, by decide, fun i _ hsp => Nat.not_lt_zero (sliceOther.off + i) hsp.2.2,
    AddTx_frame_in_memory double fsmApart heapOther (actOk 1) optsFresh⟩

end Mem

/-! ## Registrations by several callers -/

/-- C13 (the code at the failing input): `AddTx` holds the lock from its first
statement to its last, so the calls of N callers take effect one after the other,
in some order. Whatever that order, on the zero value `Txs` ends with one entry:
of N ≥ 2 actions registered, not all N are present. -/
theorem AddTx_schedules_keep_one_entry (regs : List (ActionFunc × List Opt))
    (hN : 2 ≤ regs.length) :
    ∀ schedule : List (ActionFunc × List Opt), schedule.Perm regs →
      ∃ fsm, AddTxAll FSM.zero schedule = .ok fsm ∧ fsm.Txs.len = 1 ∧
        fsm.Txs.len < regs.length := by
  intro schedule hperm
  obtain ⟨fsm, hfsm, _, hTxs⟩ := AddTxAll_Txs schedule FSM.zero
  have hlen : schedule.length = regs.length := hperm.length_eq
  have hne : schedule ≠ [] := by
    intro h0
    rw [h0] at hlen
    simp at hlen
    omega
  have hlast : schedule.getLast? = some (schedule.getLast hne) :=
    List.getLast?_eq_getLast _ _
  rw [hlast] at hTxs
  have h1 : fsm.Txs.len = 1 := by
    rw [hTxs]
    rfl
  exact ⟨fsm, hfsm, h1, by omega⟩

/-- C13 at two callers registering `actOk 1` and `actOk 2`, the second call taking
effect first. -/
theorem AddTx_schedules_keep_one_entry_witness :
    2 ≤ [(actOk 1, ([] : List Opt)), (actOk 2, [])].length ∧
    ∃ fsm, AddTxAll FSM.zero [(actOk 2, []), (actOk 1, [])] = .ok fsm ∧ fsm.Txs.len = 1 ∧
      fsm.Txs.len < [(actOk 1, ([] : List Opt)), (actOk 2, [])].length :=
  ⟨by decide,
    AddTx_schedules_keep_one_entry [(actOk 1, []), (actOk 2, [])] (by decide)
      [(actOk 2, []), (actOk 1, [])] (List.Perm.swap _ _ [])⟩

end GoFsm
